import Mathlib

/-
  Verification development for the openclaw-agent runtime.

  Shallow embedding of the core components:
    - core/budget.ts   (budget ledger: createBudget, canCallModel, bookModelCall, ...)
    - core/toolloop.ts (runToolLoop scheduler, modelled with explicit fuel and
                        an oracle for the model, the approval callback and the registry)
    - tools/policy.ts  (assertAllowedPath, classifyTool; paths modelled as
                        POSIX segment lists relative to the project root)
    - tools/registry.ts (toolReadFile, toolListDir, toolWriteFile, atomicWrite;
                        filesystem effects modelled as explicit operation traces)
    - memory/store.ts  (saveSession)
    - the legacy tools/runTool read_file branch (redactSecrets and its regex
      passes, modelled as a character scanner).

  JavaScript numbers are modelled as integers (Int for raw inputs that the code
  clamps, Nat for counters); all code here is executable.
-/

namespace OpenClaw

/-! ## core/types.ts : Usage -/

structure Usage where
  inputTokens : Nat
  outputTokens : Nat
  totalTokens : Nat
  deriving Repr, DecidableEq

/-- makeUsage from core/types.ts: clamps to non-negative integers (identity on Nat)
and sets totalTokens to the sum. -/
def makeUsage (inputTokens outputTokens : Nat) : Usage :=
  { inputTokens := inputTokens
    outputTokens := outputTokens
    totalTokens := inputTokens + outputTokens }

/-! ## core/budget.ts -/

inductive ToolKind
  | read
  | write
  | other
  deriving Repr, DecidableEq

/-- Raw limits handed to createBudget, before normalization
(JS numbers modelled as Int; optional caps as Option). -/
structure BudgetLimitsIn where
  maxSteps : Int
  maxToolCalls : Int
  maxTotalTokens : Option Int
  maxTotalOutputTokens : Option Int
  maxTotalInputTokens : Option Int
  maxReads : Option Int
  maxWrites : Option Int
  deriving Repr, DecidableEq

structure BudgetLimits where
  maxSteps : Nat
  maxToolCalls : Nat
  maxTotalTokens : Option Nat
  maxTotalOutputTokens : Option Nat
  maxTotalInputTokens : Option Nat
  maxReads : Option Nat
  maxWrites : Option Nat
  deriving Repr, DecidableEq

structure BudgetState where
  limits : BudgetLimits
  stepsUsed : Nat
  toolCallsUsed : Nat
  readsUsed : Nat
  writesUsed : Nat
  totalTokensUsed : Nat
  totalInputTokensUsed : Nat
  totalOutputTokensUsed : Nat
  deriving Repr, DecidableEq

/-- Math.max(0, Math.trunc(x)) on an optional cap. -/
def normCap (x : Option Int) : Option Nat :=
  x.map fun v => (max 0 v).toNat

/-- normalizeLimits from core/budget.ts. -/
def normalizeLimits (l : BudgetLimitsIn) : BudgetLimits :=
  { maxSteps := (max 1 l.maxSteps).toNat
    maxToolCalls := (max 0 l.maxToolCalls).toNat
    maxTotalTokens := normCap l.maxTotalTokens
    maxTotalOutputTokens := normCap l.maxTotalOutputTokens
    maxTotalInputTokens := normCap l.maxTotalInputTokens
    maxReads := normCap l.maxReads
    maxWrites := normCap l.maxWrites }

def createBudget (l : BudgetLimitsIn) : BudgetState :=
  { limits := normalizeLimits l
    stepsUsed := 0
    toolCallsUsed := 0
    readsUsed := 0
    writesUsed := 0
    totalTokensUsed := 0
    totalInputTokensUsed := 0
    totalOutputTokensUsed := 0 }

def stepsLeft (b : BudgetState) : Int :=
  (b.limits.maxSteps : Int) - (b.stepsUsed : Int)

def toolCallsLeft (b : BudgetState) : Int :=
  (b.limits.maxToolCalls : Int) - (b.toolCallsUsed : Int)

/-- A configured cap is hit when the used counter has reached it. -/
def capHit (cap : Option Nat) (used : Nat) : Bool :=
  match cap with
  | none => false
  | some c => used ≥ c

/-- canCallModel from core/budget.ts. -/
def canCallModel (b : BudgetState) : Bool :=
  if stepsLeft b ≤ 0 then false
  else if capHit b.limits.maxTotalTokens b.totalTokensUsed then false
  else if capHit b.limits.maxTotalInputTokens b.totalInputTokensUsed then false
  else if capHit b.limits.maxTotalOutputTokens b.totalOutputTokensUsed then false
  else true

/-- canCallTool from core/budget.ts. -/
def canCallTool (b : BudgetState) (kind : ToolKind) : Bool :=
  if toolCallsLeft b ≤ 0 then false
  else if kind = ToolKind.read ∧ capHit b.limits.maxReads b.readsUsed then false
  else if kind = ToolKind.write ∧ capHit b.limits.maxWrites b.writesUsed then false
  else true

/-- bookModelCall: throws (Except.error) when canCallModel fails. -/
def bookModelCall (b : BudgetState) : Except String BudgetState :=
  if canCallModel b then Except.ok { b with stepsUsed := b.stepsUsed + 1 }
  else Except.error ("Budget exhausted: model call not allowed")

/-- bookUsage: accumulates token counters unconditionally. -/
def bookUsage (b : BudgetState) (usage : Usage) : BudgetState :=
  { b with
    totalTokensUsed := b.totalTokensUsed + usage.totalTokens
    totalInputTokensUsed := b.totalInputTokensUsed + usage.inputTokens
    totalOutputTokensUsed := b.totalOutputTokensUsed + usage.outputTokens }

/-- bookToolCall: throws (Except.error) when canCallTool fails. -/
def bookToolCall (b : BudgetState) (kind : ToolKind) : Except String BudgetState :=
  if canCallTool b kind then
    Except.ok
      { b with
        toolCallsUsed := b.toolCallsUsed + 1
        readsUsed := if kind = ToolKind.read then b.readsUsed + 1 else b.readsUsed
        writesUsed := if kind = ToolKind.write then b.writesUsed + 1 else b.writesUsed }
  else Except.error ("Budget exhausted: tool call not allowed")

/-! ## core/types.ts : messages and tool calls -/

structure ToolCall where
  id : String
  name : String
  argumentsJson : String
  deriving Repr, DecidableEq

/-- The Message union of core/types.ts. An absent toolCalls field is modelled as
the empty list (the loop reads it as toolCalls ?? []). -/
inductive LlmMessage
  | system (content : String)
  | user (content : String)
  | assistant (content : String) (toolCalls : List ToolCall)
  | tool (name : String) (toolCallId : String) (content : String)
  deriving Repr, DecidableEq

inductive Purpose
  | purposeDefault
  | dev
  | heartbeat
  | runtime
  deriving Repr, DecidableEq

/-- The parts of LlmResponse that runToolLoop reads. -/
structure LlmResponse where
  text : String
  content : String
  toolCalls : List ToolCall
  usage : Usage
  deriving Repr, DecidableEq

def LlmResponse.message (r : LlmResponse) : LlmMessage :=
  LlmMessage.assistant r.content r.toolCalls

/-! ## JSON.stringify(obj, null, 2) for the flat objects the loop serializes -/

def hexDigit (n : Nat) : Char :=
  if n < 10 then Char.ofNat (48 + n) else Char.ofNat (87 + n)

def jsonEscapeChar (c : Char) : String :=
  if c = '"' then "\\\""
  else if c = '\\' then "\\\\"
  else if c = '\n' then "\\n"
  else if c = '\r' then "\\r"
  else if c = '\t' then "\\t"
  else if c = '\x08' then "\\b"
  else if c = '\x0c' then "\\f"
  else if c.toNat < 32 then "\\u00" ++ String.singleton (hexDigit (c.toNat / 16)) ++
    String.singleton (hexDigit (c.toNat % 16))
  else String.singleton c

def jsonEscape (s : String) : String :=
  String.join (s.data.map jsonEscapeChar)

inductive JVal
  | jbool (b : Bool)
  | jstr (s : String)
  deriving Repr, DecidableEq

def jvalRender : JVal → String
  | JVal.jbool true => "true"
  | JVal.jbool false => "false"
  | JVal.jstr s => "\"" ++ jsonEscape s ++ "\""

/-- JSON.stringify of a flat non-empty object with indent 2. -/
def stringifyObj2 (fields : List (String × JVal)) : String :=
  "\x7b\n" ++
    String.intercalate (",\n")
      (fields.map fun kv => "  \"" ++ jsonEscape kv.1 ++ "\": " ++ jvalRender kv.2) ++
    "\n\x7d"

/-- Content of the Tool message appended for a denied call (toolloop.ts lines 151-164). -/
def deniedContent (name : String) : String :=
  stringifyObj2
    [("ok", JVal.jbool false), ("tool", JVal.jstr name),
     ("error", JVal.jstr ("Tool call denied by policy/approval."))]

/-- Content synthesized when runToolFromModelCall throws (toolloop.ts lines 179-186). -/
def errorContent (name msg : String) : String :=
  stringifyObj2
    [("ok", JVal.jbool false), ("tool", JVal.jstr name), ("error", JVal.jstr msg)]

/-! ## tools/policy.ts : classifyTool -/

def classifyTool (name : String) : ToolKind :=
  if name = "read_file" ∨ name = "list_dir" then ToolKind.read
  else if name = "write_file" then ToolKind.write
  else ToolKind.other

/-! ## core/toolloop.ts -/

def clampHistory (keepLastN : Option Int) (msgs : List LlmMessage) : List LlmMessage :=
  match keepLastN with
  | none => msgs
  | some k =>
    if k ≤ 0 then msgs
    else if (msgs.length : Int) ≤ k then msgs
    else msgs.drop (msgs.length - k.toNat)

def addUsage (a b : Usage) : Usage :=
  makeUsage (a.inputTokens + b.inputTokens) (a.outputTokens + b.outputTokens)

/-- The external collaborators of one scheduler run: the provider (chat, indexed
by the model-call number), the approval callback, and the tool registry
(runToolFromModelCall; a thrown exception is an Except.error). -/
structure Oracle where
  chat : Nat → LlmResponse
  approve : ToolCall → Bool
  exec : ToolCall → Purpose → Except String String

/-- Observable effects of one scheduler run, in order. -/
inductive LoopEvent
  | modelCall (step : Nat)
  | approvalPrompt (call : ToolCall)
  | denied (call : ToolCall)
  | registryExec (call : ToolCall) (purpose : Purpose)
  deriving Repr, DecidableEq

/-- The Tool message the loop appends for one tool call (derived view of the
bodies of the for-loop in runToolLoop; processCalls is proven to append it). -/
def toolMsgFor (o : Oracle) (purpose : Purpose) (call : ToolCall) : LlmMessage :=
  if o.approve call then
    LlmMessage.tool call.name call.id
      (match o.exec call purpose with
       | Except.ok s => s
       | Except.error m => errorContent call.name m)
  else
    LlmMessage.tool call.name call.id (deniedContent call.name)

/-- The for-loop over the tool calls of one model turn (runToolLoop lines 137-196).
An Except.error is a bookToolCall throw, which aborts the whole run. -/
def processCalls (o : Oracle) (purpose : Purpose) (keepLastN : Option Int) :
    List ToolCall → BudgetState → List LlmMessage → List LoopEvent →
    Except (String × BudgetState × List LlmMessage × List LoopEvent)
      (BudgetState × List LlmMessage × List LoopEvent)
  | [], b, msgs, ev => Except.ok (b, msgs, ev)
  | call :: rest, b, msgs, ev =>
    match bookToolCall b (classifyTool call.name) with
    | Except.error e => Except.error (e, b, msgs, ev)
    | Except.ok b1 =>
      let ev1 := ev ++ [LoopEvent.approvalPrompt call]
      if o.approve call then
        let content :=
          match o.exec call purpose with
          | Except.ok s => s
          | Except.error m => errorContent call.name m
        processCalls o purpose keepLastN rest b1
          (clampHistory keepLastN (msgs ++ [LlmMessage.tool call.name call.id content]))
          (ev1 ++ [LoopEvent.registryExec call purpose])
      else
        processCalls o purpose keepLastN rest b1
          (clampHistory keepLastN (msgs ++ [LlmMessage.tool call.name call.id (deniedContent call.name)]))
          (ev1 ++ [LoopEvent.denied call])

structure LoopState where
  budget : BudgetState
  messages : List LlmMessage
  usageTotal : Usage
  lastResponse : Option LlmResponse
  stepIdx : Nat
  trace : List LoopEvent
  deriving Repr, DecidableEq

inductive LoopResult
  | done (final : LlmResponse) (st : LoopState)
  | errNoFirstCall (st : LoopState)
  | errModelBook (st : LoopState)
  | errToolBook (msg : String) (st : LoopState)
  | outOfFuel (st : LoopState)
  deriving Repr, DecidableEq

def LoopResult.state : LoopResult → LoopState
  | LoopResult.done _ st => st
  | LoopResult.errNoFirstCall st => st
  | LoopResult.errModelBook st => st
  | LoopResult.errToolBook _ st => st
  | LoopResult.outOfFuel st => st

/-- The while-true loop of runToolLoop, with explicit fuel standing in for the
unbounded loop (the termination theorem shows the chosen fuel is never
exhausted). One fuel unit is one loop iteration. -/
def runLoopFuel (o : Oracle) (purpose : Purpose) (keepLastN : Option Int) :
    Nat → LoopState → LoopResult
  | fuel, st =>
    if canCallModel st.budget then
      match fuel with
      | 0 => LoopResult.outOfFuel st
      | fuel + 1 =>
        match bookModelCall st.budget with
        | Except.error _ => LoopResult.errModelBook st
        | Except.ok b1 =>
          let res := o.chat st.stepIdx
          let st1 : LoopState :=
            { budget := bookUsage b1 res.usage
              messages := clampHistory keepLastN (st.messages ++ [res.message])
              usageTotal := addUsage st.usageTotal res.usage
              lastResponse := some res
              stepIdx := st.stepIdx + 1
              trace := st.trace ++ [LoopEvent.modelCall st.stepIdx] }
          if res.toolCalls.isEmpty then LoopResult.done res st1
          else
            match processCalls o purpose keepLastN res.toolCalls st1.budget st1.messages
                st1.trace with
            | Except.error (e, b2, msgs2, ev2) =>
              LoopResult.errToolBook e { st1 with budget := b2, messages := msgs2, trace := ev2 }
            | Except.ok (b2, msgs2, ev2) =>
              runLoopFuel o purpose keepLastN fuel
                { st1 with budget := b2, messages := msgs2, trace := ev2 }
    else
      match st.lastResponse with
      | some r => LoopResult.done r st
      | none => LoopResult.errNoFirstCall st

/-- The optional limits of ToolLoopOptions. -/
structure LimitsIn where
  maxSteps : Option Int
  maxToolCalls : Option Int
  maxTotalTokens : Option Int
  maxTotalInputTokens : Option Int
  maxTotalOutputTokens : Option Int
  maxReads : Option Int
  maxWrites : Option Int
  deriving Repr, DecidableEq

/-- The parts of the request that runToolLoop itself reads (maxOutputTokens and
the tools list are forwarded to the provider, which is the chat oracle here). -/
structure ToolLoopRequest where
  purpose : Purpose
  messages : List LlmMessage
  deriving Repr, DecidableEq

structure ToolLoopOptions where
  request : ToolLoopRequest
  limits : LimitsIn
  keepLastN : Option Int
  deriving Repr, DecidableEq

/-- purpose passed to every tool (toolloop.ts line 92). -/
def loopPurpose (p : Purpose) : Purpose :=
  if p = Purpose.dev then Purpose.dev else Purpose.runtime

/-- The budget created at the top of runToolLoop (defaults 6 and 12). -/
def initialBudget (opts : ToolLoopOptions) : BudgetState :=
  createBudget
    { maxSteps := opts.limits.maxSteps.getD 6
      maxToolCalls := opts.limits.maxToolCalls.getD 12
      maxTotalTokens := opts.limits.maxTotalTokens
      maxTotalOutputTokens := opts.limits.maxTotalOutputTokens
      maxTotalInputTokens := opts.limits.maxTotalInputTokens
      maxReads := opts.limits.maxReads
      maxWrites := opts.limits.maxWrites }

def runToolLoop (o : Oracle) (opts : ToolLoopOptions) : LoopResult :=
  let budget := initialBudget opts
  runLoopFuel o (loopPurpose opts.request.purpose) opts.keepLastN budget.limits.maxSteps
    { budget := budget
      messages := opts.request.messages
      usageTotal := makeUsage 0 0
      lastResponse := none
      stepIdx := 0
      trace := [] }

/-- stepsUsed and toolCallsUsed within their (normalized) limits. -/
def BudgetOk (b : BudgetState) : Prop :=
  b.stepsUsed ≤ b.limits.maxSteps ∧ b.toolCallsUsed ≤ b.limits.maxToolCalls

/-- The budget carried by a processCalls outcome (the state at the throw for errors). -/
def pcBudget
    (r : Except (String × BudgetState × List LlmMessage × List LoopEvent)
      (BudgetState × List LlmMessage × List LoopEvent)) : BudgetState :=
  match r with
  | Except.ok (b, _, _) => b
  | Except.error (_, b, _, _) => b

def LoopResult.isOutOfFuel : LoopResult → Bool
  | LoopResult.outOfFuel _ => true
  | _ => false

def isModelCallEvent : LoopEvent → Bool
  | LoopEvent.modelCall _ => true
  | _ => false

def countModelCalls (tr : List LoopEvent) : Nat :=
  tr.countP (fun e => isModelCallEvent e)

/-- The event list carried by a processCalls outcome. -/
def pcEvents
    (r : Except (String × BudgetState × List LlmMessage × List LoopEvent)
      (BudgetState × List LlmMessage × List LoopEvent)) : List LoopEvent :=
  match r with
  | Except.ok (_, _, ev) => ev
  | Except.error (_, _, _, ev) => ev

/-- A budget state whose total-token counter exceeds its configured cap. -/
def exampleOverBudget : BudgetState :=
  { limits :=
      { maxSteps := 5, maxToolCalls := 5, maxTotalTokens := some 10
        maxTotalOutputTokens := none, maxTotalInputTokens := none
        maxReads := none, maxWrites := none }
    stepsUsed := 1, toolCallsUsed := 0, readsUsed := 0, writesUsed := 0
    totalTokensUsed := 25, totalInputTokensUsed := 12, totalOutputTokensUsed := 13 }

/-! ## Tool-call / Tool-message linkage bookkeeping (for the scheduler invariants) -/

/-- The ids of the tool calls emitted by one model response. -/
def respIds (r : LlmResponse) : List String :=
  r.toolCalls.map (fun c => c.id)

/-- Does this message carry (as an Assistant message) a tool call with this id? -/
def msgHasCallId (m : LlmMessage) (id : String) : Bool :=
  match m with
  | LlmMessage.assistant _ tcs => tcs.any (fun c => c.id = id)
  | _ => false

/-- Is this message a Tool message bound to this toolCallId? -/
def isToolMsgFor (m : LlmMessage) (id : String) : Bool :=
  match m with
  | LlmMessage.tool _ tcid _ => tcid = id
  | _ => false

def countToolFor (msgs : List LlmMessage) (id : String) : Nat :=
  msgs.countP (fun m => isToolMsgFor m id)

def mentionsId (m : LlmMessage) (id : String) : Bool :=
  msgHasCallId m id || isToolMsgFor m id

/-- The messages one completed loop iteration appends (before clamping): the
assistant message followed by exactly one Tool message per emitted call. -/
def turnBlock (o : Oracle) (p : Purpose) (j : Nat) : List LlmMessage :=
  (o.chat j).message :: ((o.chat j).toolCalls.map (toolMsgFor o p))

/-- The full unclamped message transcript after n completed iterations. -/
def transcript (o : Oracle) (p : Purpose) (init : List LlmMessage) : Nat → List LlmMessage
  | 0 => init
  | n + 1 => transcript o p init n ++ turnBlock o p n

/-! ## Concrete witness inputs: a two-step run with one approved tool call -/

def wCall : ToolCall :=
  { id := "c1", name := "calculator", argumentsJson := "\x7b\x7d" }

def wRes0 : LlmResponse :=
  { text := "", content := "", toolCalls := [wCall], usage := makeUsage 1 1 }

def wRes1 : LlmResponse :=
  { text := "done", content := "done", toolCalls := [], usage := makeUsage 1 1 }

def wOracle : Oracle :=
  { chat := fun n => if n = 0 then wRes0 else wRes1
    approve := fun _ => true
    exec := fun _ _ => Except.ok ("\x7b\x7d") }

def wLimits : LimitsIn :=
  { maxSteps := none, maxToolCalls := none, maxTotalTokens := none
    maxTotalInputTokens := none, maxTotalOutputTokens := none
    maxReads := none, maxWrites := none }

def wOpts : ToolLoopOptions :=
  { request := { purpose := Purpose.purposeDefault, messages := [LlmMessage.user ("hi")] }
    limits := wLimits
    keepLastN := none }

/-- The denial JSON as the spec sentence states it (ok and error fields only). -/
def claimedDeniedContent : String :=
  stringifyObj2
    [("ok", JVal.jbool false), ("error", JVal.jstr ("Tool call denied by policy/approval."))]

/-- The message list carried by a processCalls outcome. -/
def pcMsgs
    (r : Except (String × BudgetState × List LlmMessage × List LoopEvent)
      (BudgetState × List LlmMessage × List LoopEvent)) : List LlmMessage :=
  match r with
  | Except.ok (_, msgs, _) => msgs
  | Except.error (_, _, msgs, _) => msgs

def cexCall : ToolCall :=
  { id := "w1", name := "write_file", argumentsJson := "\x7b\x7d" }

/-- An oracle whose approval callback denies every call. -/
def cexOracleDeny : Oracle :=
  { chat := fun n => if n = 0 then { wRes0 with toolCalls := [cexCall] } else wRes1
    approve := fun _ => false
    exec := fun _ _ => Except.ok ("\x7b\x7d") }

def cexBudget : BudgetState :=
  createBudget
    { maxSteps := 6, maxToolCalls := 12, maxTotalTokens := none
      maxTotalOutputTokens := none, maxTotalInputTokens := none
      maxReads := none, maxWrites := none }

/-! ## tools/policy.ts : path validation (paths as POSIX segment lists under the
project root; the abstract root itself never appears) -/

inductive AccessKind
  | read
  | write
  deriving Repr, DecidableEq

def Purpose.str : Purpose → String
  | Purpose.purposeDefault => "default"
  | Purpose.dev => "dev"
  | Purpose.heartbeat => "heartbeat"
  | Purpose.runtime => "runtime"

/-- The JavaScript whitespace class (used by String.prototype.trim and regex \s). -/
def JS_WS : List Char :=
  [' ', '\t', '\n', '\r', '\u000b', '\u000c', '\u00a0', '\u1680', '\u2000',
    '\u2001', '\u2002', '\u2003', '\u2004', '\u2005', '\u2006', '\u2007',
    '\u2008', '\u2009', '\u200a', '\u2028', '\u2029', '\u202f', '\u205f',
    '\u3000', '\ufeff']

def isJsWs (c : Char) : Bool := JS_WS.contains c

/-- String.prototype.trim (over code points). -/
def jsTrim (s : String) : String :=
  String.mk (((s.data.dropWhile isJsWs).reverse.dropWhile isJsWs).reverse)

def splitOnSlashAux : List Char → List Char → List String
  | [], acc => [String.mk acc.reverse]
  | c :: cs, acc =>
    if c = '/' then String.mk acc.reverse :: splitOnSlashAux cs []
    else splitOnSlashAux cs (c :: acc)

def splitOnSlash (s : String) : List String := splitOnSlashAux s.data []

def startsWithSlash (s : String) : Bool :=
  match s.data with
  | c :: _ => c = '/'
  | [] => false

/-- s.slice(0, n) over code points. -/
def strTake (s : String) (n : Nat) : String := String.mk (s.data.take n)

/-- trim, then backslashes to forward slashes. -/
def normalizeUserPath (s : String) : String :=
  String.mk ((jsTrim s).data.map (fun c => if c = '\\' then '/' else c))

def DENY_SEGMENTS : List String := [".git", "node_modules", "dist"]

def DENY_FILES : List String := [".env", ".env.local", ".env.production", ".env.development"]

def READ_PREFIXES : List (List String) :=
  [["src"], ["data"], ["logs"], ["notes"], ["README.md"], ["package.json"]]

def WRITE_PREFIXES_RUNTIME : List (List String) := [["data", "outputs"]]

def WRITE_PREFIXES_DEV : List (List String) := [["data", "outputs"], ["src"]]

/-- One step of path.resolve (over the project root): the state is the count of
parent traversals escaping the root and the segment stack below the root. -/
def resolveStep (acc : Nat × List String) (seg : String) : Nat × List String :=
  if seg = "" ∨ seg = "." then acc
  else if seg = ".." then
    match acc.2 with
    | [] => (acc.1 + 1, [])
    | _ => (acc.1, acc.2.dropLast)
  else (acc.1, acc.2 ++ [seg])

/-- path.resolve(PROJECT_ROOT, p) followed by path.relative(PROJECT_ROOT, ·):
an escape count (positive iff the relative form starts with a parent traversal)
and the resolved segments under the root. -/
def resolveRel (p : String) : Nat × List String :=
  (splitOnSlash p).foldl resolveStep (0, [])

def hasDeniedSegment (rel : List String) : Bool :=
  rel.any (fun seg => DENY_SEGMENTS.contains seg)

/-- basename is a denied dotenv-style file (an empty rel means the root itself,
whose basename is the abstract root directory name, never a dotenv file). -/
def isDeniedFile (rel : List String) : Bool :=
  match rel.getLast? with
  | some b => DENY_FILES.contains b
  | none => false

def isUnderAllowedPrefixes (rel : List String) (prefixes : List (List String)) : Bool :=
  prefixes.any (fun pre => pre.isPrefixOf rel)

/-- lstat-based symlink rejection; a missing file is fine. The filesystem is
abstracted to the set of resolved paths that exist and are symbolic links. -/
def assertNotSymlink (symlinks : List (List String)) (rel : List String) :
    Except String Unit :=
  if symlinks.contains rel then Except.error ("Symlinks are denied by policy")
  else Except.ok ()

/-- assertAllowedPath from tools/policy.ts. -/
def assertAllowedPath (symlinks : List (List String)) (userPath : String)
    (kind : AccessKind) (purpose : Purpose) : Except String (List String) :=
  let cleaned := normalizeUserPath userPath
  if cleaned = "" then Except.error ("Empty path is not allowed")
  else if startsWithSlash cleaned then
    Except.error ("Absolute paths are denied by policy: " ++ userPath)
  else
    let resolved := resolveRel cleaned
    if resolved.1 > 0 then Except.error ("Path traversal blocked by policy")
    else if hasDeniedSegment resolved.2 then
      Except.error ("Path denied by policy (segment): " ++ userPath)
    else if isDeniedFile resolved.2 then
      Except.error ("Path denied by policy (file): " ++ userPath)
    else
      match kind with
      | AccessKind.read =>
        if ¬ isUnderAllowedPrefixes resolved.2 READ_PREFIXES then
          Except.error ("Read path not allowed by policy: " ++ userPath)
        else
          match assertNotSymlink symlinks resolved.2 with
          | Except.error e => Except.error e
          | Except.ok _ => Except.ok resolved.2
      | AccessKind.write =>
        let writePrefixes :=
          if purpose = Purpose.dev then WRITE_PREFIXES_DEV else WRITE_PREFIXES_RUNTIME
        if ¬ isUnderAllowedPrefixes resolved.2 writePrefixes then
          Except.error ("Write path not allowed by policy (" ++ purpose.str ++ "): " ++ userPath)
        else
          match assertNotSymlink symlinks resolved.2 with
          | Except.error e => Except.error e
          | Except.ok _ => Except.ok resolved.2

/-! ## tools/registry.ts : filesystem model and the file tools -/

inductive FsOp
  | mkdirp (dir : List String)
  | writeFile (path : List String) (content : String)
  | rename (src dst : List String)
  deriving Repr, DecidableEq

structure Fs where
  files : List (List String × String)
  symlinks : List (List String)
  deriving Repr, DecidableEq

def Fs.lookup (fs : Fs) (p : List String) : Option String :=
  (fs.files.find? (fun kv => kv.1 == p)).map (fun kv => kv.2)

def Fs.insert (fs : Fs) (p : List String) (content : String) : Fs :=
  { fs with files := (p, content) :: fs.files }

def hasDirectWrite (ops : List FsOp) (target : List String) : Bool :=
  ops.any (fun op =>
    match op with
    | FsOp.writeFile p _ => p == target
    | _ => false)

def hasRenameTo (ops : List FsOp) (target : List String) : Bool :=
  ops.any (fun op =>
    match op with
    | FsOp.rename _ d => d == target
    | _ => false)

/-- The temp file atomicWrite creates next to the target. -/
def tmpName (full : List String) (uuid : String) : List String :=
  full.dropLast ++ [".tmp-" ++ (full.getLast?.getD "") ++ "-" ++ uuid]

/-- atomicWrite from tools/registry.ts: mkdir -p on the directory, write the temp
file, rename it over the target. -/
def atomicWrite (full : List String) (content : String) (uuid : String) : List FsOp :=
  [FsOp.mkdirp full.dropLast, FsOp.writeFile (tmpName full uuid) content,
    FsOp.rename (tmpName full uuid) full]

structure WriteResult where
  path : String
  bytes : Nat
  overwritten : Bool
  deriving Repr, DecidableEq

/-- ok/fail shape of a write_file ToolResult (tool field is the constant write_file). -/
inductive WriteOut
  | ok (r : WriteResult)
  | fail (error : String)
  deriving Repr, DecidableEq

/-- toolWriteFile from tools/registry.ts. An Except.error is a thrown validation
error (caught further up by the dispatch); the returned triple is the tool result,
the filesystem afterwards, and the operations performed. -/
def toolWriteFile (fs : Fs) (uuid : String) (purpose : Purpose)
    (pathArg content : String) (overwrite : Bool) :
    Except String (WriteOut × Fs × List FsOp) :=
  if pathArg = "" then
    Except.ok (WriteOut.fail ("Missing required field: path"), fs, [])
  else
    match assertAllowedPath fs.symlinks pathArg AccessKind.write purpose with
    | Except.error e => Except.error e
    | Except.ok full =>
      match fs.lookup full with
      | some _ =>
        if ¬ overwrite then
          Except.ok (WriteOut.fail ("File exists. Set overwrite=true to overwrite."), fs, [])
        else
          Except.ok
            (WriteOut.ok { path := pathArg, bytes := content.utf8ByteSize, overwritten := overwrite },
              fs.insert full content, atomicWrite full content uuid)
      | none =>
        Except.ok
          (WriteOut.ok { path := pathArg, bytes := content.utf8ByteSize, overwritten := overwrite },
            fs.insert full content, atomicWrite full content uuid)

inductive EntryKind
  | dir
  | file
  | symlink
  | other
  deriving Repr, DecidableEq

structure DirEntry where
  name : String
  kind : EntryKind
  deriving Repr, DecidableEq

def entryTypeStr : EntryKind → String
  | EntryKind.dir => "dir"
  | EntryKind.file => "file"
  | EntryKind.symlink => "symlink"
  | EntryKind.other => "other"

def MAX_LIST_ENTRIES : Nat := 300

structure ListResult where
  path : String
  capped : Bool
  entries : List (String × String)
  deriving Repr, DecidableEq

/-- toolListDir from tools/registry.ts, after read validation; entries is the
readdir result (direct children, in order). -/
def toolListDir (pathArg : String) (entries : List DirEntry) : ListResult :=
  { path := pathArg
    capped := entries.length > MAX_LIST_ENTRIES
    entries := (entries.take MAX_LIST_ENTRIES).map (fun e => (e.name, entryTypeStr e.kind)) }

def MAX_READ_CHARS : Nat := 50000

structure ReadResult where
  path : String
  bytes : Nat
  truncated : Bool
  content : String
  deriving Repr, DecidableEq

/-- toolReadFile from tools/registry.ts, after read validation; raw is the file
content read as UTF-8 (string indices are modelled as code points). It always
succeeds: no size cap, no redaction, truncation at 50000 characters. -/
def toolReadFile (pathArg : String) (raw : String) : ReadResult :=
  { path := pathArg
    bytes := raw.utf8ByteSize
    truncated := raw.data.length > MAX_READ_CHARS
    content := strTake raw MAX_READ_CHARS }

/-! ## memory/store.ts : saveSession -/

structure Session where
  id : String
  createdAt : String
  updatedAt : String
  messages : List LlmMessage
  deriving Repr, DecidableEq

def SESS_DIR : List String := ["data", "sessions"]

def sessionPath (id : String) : List String :=
  SESS_DIR ++ [id ++ ".json"]

/-- Stands for JSON.stringify(session, null, 2); the exact rendering is irrelevant
to the claims, only that the whole document is written in one operation. -/
def serializeSession (s : Session) : String :=
  s.id ++ "|" ++ s.createdAt ++ "|" ++ s.updatedAt ++ "|" ++ toString s.messages.length

/-- saveSession from memory/store.ts: mkdir -p the sessions directory, set
updatedAt to now, then one direct fs.writeFile of the whole document (no temp
file, no rename). -/
def saveSession (s : Session) (now : String) : Session × List FsOp :=
  let s' := { s with updatedAt := now }
  (s', [FsOp.mkdirp SESS_DIR, FsOp.writeFile (sessionPath s.id) (serializeSession s')])

def cexSession : Session :=
  { id := "s1", createdAt := "t0", updatedAt := "t0", messages := [] }

def pathOk (r : Except String (List String)) : Bool :=
  match r with
  | Except.ok _ => true
  | Except.error _ => false

/-- Written from the claim wording, for comparison with assertAllowedPath: a write
path is accepted exactly when it is non-empty, relative, stays under the root,
avoids denied segments and dotenv basenames, resolves under the purpose-dependent
write prefixes (data/outputs, plus src for dev), and is not an existing symlink. -/
def specWriteAccepts (symlinks : List (List String)) (userPath : String)
    (purpose : Purpose) : Bool :=
  let cleaned := normalizeUserPath userPath
  let resolved := resolveRel cleaned
  (!(cleaned == "")) && (!(startsWithSlash cleaned)) && decide (resolved.1 = 0) &&
    (!(hasDeniedSegment resolved.2)) && (!(isDeniedFile resolved.2)) &&
    isUnderAllowedPrefixes resolved.2
      (if purpose = Purpose.dev then WRITE_PREFIXES_DEV else WRITE_PREFIXES_RUNTIME) &&
    (!(symlinks.contains resolved.2))

/-! ## Legacy runTool read_file branch: redactSecrets (the seven /gi regex passes,
modelled as a left-to-right scanner with JS backtracking on the whitespace run)
and the 200 KB / 4000-char read pipeline -/

def SENT : List Char := ("***REDACTED***").data

def SECRET_PATTERNS : List String :=
  ["API_KEY", "GROK_API_KEY", "OPENAI_API_KEY", "ANTHROPIC_API_KEY",
    "TOKEN", "SECRET", "PASSWORD"]

/-- Case-insensitive literal match of the key; returns the input after the key. -/
def matchCI : List Char → List Char → Option (List Char)
  | [], s => some s
  | _ :: _, [] => none
  | k :: ks, c :: cs => if k.toLower = c.toLower then matchCI ks cs else none

/-- Match the regex suffix \s*=\s*(.+) at the start of t; returns the rest of the
group-1 text (after the key) and the input after the whole match. The (.+) group is
greedy up to the newline; when the input ends inside the whitespace run, the run is
given back one character per JS backtracking. -/
def matchEq (t : List Char) : Option (List Char × List Char) :=
  let w1 := t.takeWhile isJsWs
  match t.dropWhile isJsWs with
  | '=' :: t2 =>
    let w2 := t2.takeWhile isJsWs
    match t2.dropWhile isJsWs with
    | c :: r' => some (w1 ++ '=' :: w2, (c :: r').dropWhile (fun x => ¬ x = '\n'))
    | [] =>
      match w2.reverse.dropWhile (fun x => x = '\n') with
      | [] => none
      | _ :: pre =>
        some (w1 ++ '=' :: pre.reverse, (w2.reverse.takeWhile (fun x => x = '\n')).reverse)
  | _ => none

/-- One attempt of /(KEY\s*=\s*)(.+)/i at the start of s: group 1 and the rest. -/
def tryMatch (key s : List Char) : Option (List Char × List Char) :=
  match matchCI key s with
  | none => none
  | some t =>
    match matchEq t with
    | none => none
    | some g => some (s.take key.length ++ g.1, g.2)

/-- Global replace scanner for one pattern (fuel bounds the recursion; fuel equal
to the input length always suffices because every match consumes at least one
character). -/
def scanKeyF (key : List Char) : Nat → List Char → List Char
  | _, [] => []
  | 0, s => s
  | fuel + 1, c :: cs =>
    match tryMatch key (c :: cs) with
    | some g => g.1 ++ SENT ++ scanKeyF key fuel g.2
    | none => c :: scanKeyF key fuel cs

def scanKey (key s : List Char) : List Char := scanKeyF key s.length s

/-- redactSecrets from the legacy runTool: the seven replace passes in order. -/
def redactSecrets (s : String) : String :=
  String.mk (SECRET_PATTERNS.foldl (fun acc k => scanKey k.data acc) s.data)

/-- The key provably mismatches (on a character, not by running out of input)
somewhere inside pre. -/
def mismatchCI : List Char → List Char → Bool
  | [], _ => false
  | _ :: _, [] => false
  | k :: ks, c :: cs => if k.toLower = c.toLower then mismatchCI ks cs else true

/-- No match of the key can start inside pre, whatever follows it. -/
def noMatchIn (key pre : List Char) : Bool :=
  (List.range pre.length).all (fun i => mismatchCI key (pre.drop i))

/-- A well-behaved secret value: non-empty, single-line, not starting with
whitespace. -/
def GoodVal (w : List Char) : Prop :=
  w ≠ [] ∧ (∀ c ∈ w, ¬ c = '\n') ∧ (∀ c, w.head? = some c → isJsWs c = false)

def MAX_READ_BYTES : Nat := 200000

inductive ReadOut
  | ok (r : ReadResult)
  | fail (error : String)
  deriving Repr, DecidableEq

def TRUNC_MARK : String := "\n\n...TRUNCATED...\n"

/-- The legacy runTool read_file branch, after path validation: size is the stat
size in bytes, content the file text (read as UTF-8). -/
def legacyReadFile (pathArg : String) (size : Nat) (content : String) : ReadOut :=
  if size > MAX_READ_BYTES then
    ReadOut.fail ("File too large (" ++ toString size ++ " bytes). Max is " ++
      toString MAX_READ_BYTES ++ ".")
  else
    let redacted := redactSecrets content
    if redacted.data.length > 4000 then
      ReadOut.ok
        { path := pathArg, bytes := size, truncated := true,
          content := strTake redacted 4000 ++ TRUNC_MARK }
    else
      ReadOut.ok { path := pathArg, bytes := size, truncated := false, content := redacted }

/-! ## Budget lemmas -/

theorem capHit_false_iff (cap : Option Nat) (used : Nat) :
    capHit cap used = false ↔ ∀ c, cap = some c → used < c := by
  cases cap with
  | none => simp [capHit]
  | some c =>
    simp only [capHit, decide_eq_false_iff_not, not_le, Option.some.injEq]
    constructor
    · intro h c' hc'
      omega
    · intro h
      exact h c rfl

theorem canCallModel_stepsLt {b : BudgetState} (h : canCallModel b = true) :
    b.stepsUsed < b.limits.maxSteps := by
  unfold canCallModel stepsLeft at h
  split_ifs at h with h1
  omega

theorem canCallTool_callsLt {b : BudgetState} {k : ToolKind} (h : canCallTool b k = true) :
    b.toolCallsUsed < b.limits.maxToolCalls := by
  unfold canCallTool toolCallsLeft at h
  split_ifs at h with h1
  omega

theorem bookModelCall_ok_spec {b b' : BudgetState} (h : bookModelCall b = Except.ok b') :
    b'.stepsUsed = b.stepsUsed + 1 ∧ b'.toolCallsUsed = b.toolCallsUsed ∧
      b'.limits = b.limits ∧ canCallModel b = true := by
  unfold bookModelCall at h
  split_ifs at h with hc
  · cases h
    exact ⟨rfl, rfl, rfl, hc⟩

theorem bookToolCall_ok_spec {b b' : BudgetState} {k : ToolKind}
    (h : bookToolCall b k = Except.ok b') :
    b'.toolCallsUsed = b.toolCallsUsed + 1 ∧ b'.stepsUsed = b.stepsUsed ∧
      b'.limits = b.limits ∧ canCallTool b k = true := by
  unfold bookToolCall at h
  by_cases hc : canCallTool b k = true
  · rw [if_pos hc] at h
    injection h with h'
    subst h'
    exact ⟨rfl, rfl, rfl, hc⟩
  · rw [if_neg hc] at h
    simp at h

theorem bookUsage_spec (b : BudgetState) (u : Usage) :
    (bookUsage b u).stepsUsed = b.stepsUsed ∧
      (bookUsage b u).toolCallsUsed = b.toolCallsUsed ∧
      (bookUsage b u).limits = b.limits ∧
      (bookUsage b u).totalTokensUsed = b.totalTokensUsed + u.totalTokens ∧
      (bookUsage b u).totalInputTokensUsed = b.totalInputTokensUsed + u.inputTokens ∧
      (bookUsage b u).totalOutputTokensUsed = b.totalOutputTokensUsed + u.outputTokens := by
  unfold bookUsage
  exact ⟨rfl, rfl, rfl, rfl, rfl, rfl⟩

theorem processCalls_budget (o : Oracle) (p : Purpose) (k : Option Int) :
    ∀ (calls : List ToolCall) (b : BudgetState) (msgs : List LlmMessage)
      (ev : List LoopEvent),
      (pcBudget (processCalls o p k calls b msgs ev)).limits = b.limits ∧
      (pcBudget (processCalls o p k calls b msgs ev)).stepsUsed = b.stepsUsed ∧
      (BudgetOk b → BudgetOk (pcBudget (processCalls o p k calls b msgs ev))) := by
  intro calls
  induction calls with
  | nil =>
    intro b msgs ev
    exact ⟨rfl, rfl, fun h => h⟩
  | cons call rest ih =>
    intro b msgs ev
    unfold processCalls
    cases hb : bookToolCall b (classifyTool call.name) with
    | error e => exact ⟨rfl, rfl, fun h => h⟩
    | ok b1 =>
      obtain ⟨h1, h2, h3, h4⟩ := bookToolCall_ok_spec hb
      have hok : BudgetOk b → BudgetOk b1 := by
        intro hB
        refine ⟨by rw [h2, h3]; exact hB.1, ?_⟩
        rw [h1, h3]
        exact canCallTool_callsLt h4
      by_cases ha : o.approve call
      · simp only [ha, if_true]
        obtain ⟨g1, g2, g3⟩ := ih b1 _ _
        exact ⟨g1.trans h3, g2.trans h2, fun h => g3 (hok h)⟩
      · simp only [ha, if_false]
        obtain ⟨g1, g2, g3⟩ := ih b1 _ _
        exact ⟨g1.trans h3, g2.trans h2, fun h => g3 (hok h)⟩

theorem runLoopFuel_budget (o : Oracle) (p : Purpose) (k : Option Int) :
    ∀ (fuel : Nat) (st : LoopState),
      ((runLoopFuel o p k fuel st).state.budget.limits = st.budget.limits) ∧
      (BudgetOk st.budget → BudgetOk (runLoopFuel o p k fuel st).state.budget) := by
  intro fuel
  induction fuel with
  | zero =>
    intro st
    unfold runLoopFuel
    by_cases hc : canCallModel st.budget
    · simp only [hc, if_true]
      exact ⟨rfl, fun h => h⟩
    · simp only [hc, if_false]
      cases st.lastResponse <;> exact ⟨rfl, fun h => h⟩
  | succ fuel ih =>
    intro st
    unfold runLoopFuel
    by_cases hc : canCallModel st.budget
    · simp only [hc, if_true]
      cases hb : bookModelCall st.budget with
      | error e => exact ⟨rfl, fun h => h⟩
      | ok b1 =>
        obtain ⟨h1, h2, h3, h4⟩ := bookModelCall_ok_spec hb
        set res := o.chat st.stepIdx with hres
        have hb2steps : (bookUsage b1 res.usage).stepsUsed = st.budget.stepsUsed + 1 := by
          rw [(bookUsage_spec b1 res.usage).1, h1]
        have hb2calls : (bookUsage b1 res.usage).toolCallsUsed = st.budget.toolCallsUsed := by
          rw [(bookUsage_spec b1 res.usage).2.1, h2]
        have hb2lim : (bookUsage b1 res.usage).limits = st.budget.limits := by
          rw [(bookUsage_spec b1 res.usage).2.2.1, h3]
        have hb2ok : BudgetOk st.budget → BudgetOk (bookUsage b1 res.usage) := by
          intro hB
          refine ⟨?_, ?_⟩
          · rw [hb2steps, hb2lim]
            exact canCallModel_stepsLt h4
          · rw [hb2calls, hb2lim]
            exact hB.2
        by_cases he : res.toolCalls.isEmpty
        · simp only [he, if_true]
          exact ⟨hb2lim, hb2ok⟩
        · simp only [he, if_false]
          obtain ⟨g1, g2, g3⟩ := processCalls_budget o p k res.toolCalls (bookUsage b1 res.usage) _ _
          cases hpc : processCalls o p k res.toolCalls (bookUsage b1 res.usage)
              (clampHistory k (st.messages ++ [res.message]))
              (st.trace ++ [LoopEvent.modelCall st.stepIdx]) with
          | error eout =>
            obtain ⟨e, b2, msgs2, ev2⟩ := eout
            rw [hpc] at g1 g2 g3
            simp only [pcBudget] at g1 g2 g3
            exact ⟨g1.trans hb2lim, fun h => g3 (hb2ok h)⟩
          | ok out =>
            obtain ⟨b2, msgs2, ev2⟩ := out
            rw [hpc] at g1 g2 g3
            simp only [pcBudget] at g1 g2 g3
            obtain ⟨r1, r2⟩ := ih
              { budget := b2, messages := msgs2,
                usageTotal := addUsage st.usageTotal res.usage,
                lastResponse := some res, stepIdx := st.stepIdx + 1, trace := ev2 }
            exact ⟨r1.trans (g1.trans hb2lim), fun h => r2 (g3 (hb2ok h))⟩
    · simp only [hc, if_false]
      cases st.lastResponse <;> exact ⟨rfl, fun h => h⟩

theorem countModelCalls_append (a b : List LoopEvent) :
    countModelCalls (a ++ b) = countModelCalls a + countModelCalls b := by
  unfold countModelCalls
  exact List.countP_append _ _ _

theorem processCalls_countModel (o : Oracle) (p : Purpose) (k : Option Int) :
    ∀ (calls : List ToolCall) (b : BudgetState) (msgs : List LlmMessage)
      (ev : List LoopEvent),
      countModelCalls (pcEvents (processCalls o p k calls b msgs ev)) = countModelCalls ev := by
  intro calls
  induction calls with
  | nil =>
    intro b msgs ev
    rfl
  | cons call rest ih =>
    intro b msgs ev
    unfold processCalls
    cases hb : bookToolCall b (classifyTool call.name) with
    | error e => rfl
    | ok b1 =>
      by_cases ha : o.approve call = true
      · simp only [ha, reduceIte]
        rw [ih]
        simp [countModelCalls, isModelCallEvent, List.countP_append, List.countP_cons]
      · simp only [ha, Bool.false_eq_true, reduceIte]
        rw [ih]
        simp [countModelCalls, isModelCallEvent, List.countP_append, List.countP_cons]

theorem runLoopFuel_countModel (o : Oracle) (p : Purpose) (k : Option Int) :
    ∀ (fuel : Nat) (st : LoopState),
      countModelCalls st.trace = st.budget.stepsUsed →
      countModelCalls (runLoopFuel o p k fuel st).state.trace =
        (runLoopFuel o p k fuel st).state.budget.stepsUsed := by
  intro fuel
  induction fuel with
  | zero =>
    intro st hsync
    unfold runLoopFuel
    by_cases hc : canCallModel st.budget = true
    · rw [if_pos hc]
      exact hsync
    · rw [if_neg hc]
      cases st.lastResponse <;> exact hsync
  | succ fuel ih =>
    intro st hsync
    unfold runLoopFuel
    by_cases hc : canCallModel st.budget = true
    · rw [if_pos hc]
      cases hb : bookModelCall st.budget with
      | error e => exact hsync
      | ok b1 =>
        obtain ⟨h1, h2, h3, h4⟩ := bookModelCall_ok_spec hb
        set res := o.chat st.stepIdx with hres
        have hsync1 :
            countModelCalls (st.trace ++ [LoopEvent.modelCall st.stepIdx]) =
              (bookUsage b1 res.usage).stepsUsed := by
          rw [countModelCalls_append, (bookUsage_spec b1 res.usage).1, h1, hsync]
          rfl
        by_cases he : res.toolCalls.isEmpty = true
        · simp only [he, reduceIte]
          exact hsync1
        · simp only [he, reduceIte]
          have gcount := processCalls_countModel o p k res.toolCalls (bookUsage b1 res.usage)
            (clampHistory k (st.messages ++ [res.message]))
            (st.trace ++ [LoopEvent.modelCall st.stepIdx])
          have gbud := processCalls_budget o p k res.toolCalls (bookUsage b1 res.usage)
            (clampHistory k (st.messages ++ [res.message]))
            (st.trace ++ [LoopEvent.modelCall st.stepIdx])
          cases hpc : processCalls o p k res.toolCalls (bookUsage b1 res.usage)
              (clampHistory k (st.messages ++ [res.message]))
              (st.trace ++ [LoopEvent.modelCall st.stepIdx]) with
          | error eout =>
            obtain ⟨e, b2, msgs2, ev2⟩ := eout
            rw [hpc] at gcount gbud
            simp only [pcEvents, pcBudget] at gcount gbud
            show countModelCalls ev2 = b2.stepsUsed
            rw [gcount, gbud.2.1]
            exact hsync1
          | ok out =>
            obtain ⟨b2, msgs2, ev2⟩ := out
            rw [hpc] at gcount gbud
            simp only [pcEvents, pcBudget] at gcount gbud
            exact ih
              { budget := b2, messages := msgs2,
                usageTotal := addUsage st.usageTotal res.usage,
                lastResponse := some res, stepIdx := st.stepIdx + 1, trace := ev2 }
              (by rw [gcount, gbud.2.1]; exact hsync1)
    · rw [if_neg hc]
      cases st.lastResponse <;> exact hsync

theorem runLoopFuel_not_outOfFuel (o : Oracle) (p : Purpose) (k : Option Int) :
    ∀ (fuel : Nat) (st : LoopState),
      st.budget.limits.maxSteps ≤ fuel + st.budget.stepsUsed →
      (runLoopFuel o p k fuel st).isOutOfFuel = false := by
  intro fuel
  induction fuel with
  | zero =>
    intro st hle
    unfold runLoopFuel
    by_cases hc : canCallModel st.budget = true
    · rw [if_pos hc]
      exact absurd (canCallModel_stepsLt hc) (by omega)
    · rw [if_neg hc]
      cases st.lastResponse <;> rfl
  | succ fuel ih =>
    intro st hle
    unfold runLoopFuel
    by_cases hc : canCallModel st.budget = true
    · rw [if_pos hc]
      cases hb : bookModelCall st.budget with
      | error e => rfl
      | ok b1 =>
        obtain ⟨h1, h2, h3, h4⟩ := bookModelCall_ok_spec hb
        set res := o.chat st.stepIdx with hres
        by_cases he : res.toolCalls.isEmpty = true
        · simp only [he, reduceIte]
          rfl
        · simp only [he, reduceIte]
          have gbud := processCalls_budget o p k res.toolCalls (bookUsage b1 res.usage)
            (clampHistory k (st.messages ++ [res.message]))
            (st.trace ++ [LoopEvent.modelCall st.stepIdx])
          cases hpc : processCalls o p k res.toolCalls (bookUsage b1 res.usage)
              (clampHistory k (st.messages ++ [res.message]))
              (st.trace ++ [LoopEvent.modelCall st.stepIdx]) with
          | error eout =>
            obtain ⟨e, b2, msgs2, ev2⟩ := eout
            rfl
          | ok out =>
            obtain ⟨b2, msgs2, ev2⟩ := out
            rw [hpc] at gbud
            simp only [pcBudget] at gbud
            apply ih
              { budget := b2, messages := msgs2,
                usageTotal := addUsage st.usageTotal res.usage,
                lastResponse := some res, stepIdx := st.stepIdx + 1, trace := ev2 }
            have e1 : b2.limits = st.budget.limits := by
              rw [gbud.1, (bookUsage_spec b1 res.usage).2.2.1, h3]
            have e2 : b2.stepsUsed = st.budget.stepsUsed + 1 := by
              rw [gbud.2.1, (bookUsage_spec b1 res.usage).1, h1]
            simp only [e1, e2]
            omega
    · rw [if_neg hc]
      cases st.lastResponse <;> rfl

/-! ## Claim theorems: budget (C4, C1, C9) -/

/-- Claim C4: canCallModel is true iff stepsUsed is strictly below maxSteps and every
configured token cap (total, input, output) is strictly not yet reached; bookUsage
accumulates the token counters unconditionally (leaving steps, tool calls and limits
untouched); and a budget state whose counter exceeds a configured cap is representable
and makes canCallModel false. -/
theorem canCallModel_iff_and_bookUsage_unconditional :
    (∀ b : BudgetState,
      canCallModel b = true ↔
        (b.stepsUsed < b.limits.maxSteps ∧
          (∀ c, b.limits.maxTotalTokens = some c → b.totalTokensUsed < c) ∧
          (∀ c, b.limits.maxTotalInputTokens = some c → b.totalInputTokensUsed < c) ∧
          (∀ c, b.limits.maxTotalOutputTokens = some c → b.totalOutputTokensUsed < c))) ∧
    (∀ (b : BudgetState) (u : Usage),
      (bookUsage b u).totalTokensUsed = b.totalTokensUsed + u.totalTokens ∧
      (bookUsage b u).totalInputTokensUsed = b.totalInputTokensUsed + u.inputTokens ∧
      (bookUsage b u).totalOutputTokensUsed = b.totalOutputTokensUsed + u.outputTokens ∧
      (bookUsage b u).stepsUsed = b.stepsUsed ∧
      (bookUsage b u).toolCallsUsed = b.toolCallsUsed ∧
      (bookUsage b u).limits = b.limits) ∧
    (∃ b : BudgetState,
      (∃ c, b.limits.maxTotalTokens = some c ∧ c < b.totalTokensUsed) ∧
      canCallModel b = false) := by
  refine ⟨?_, ?_, ?_⟩
  · intro b
    unfold canCallModel stepsLeft
    by_cases h1 : (b.limits.maxSteps : Int) - (b.stepsUsed : Int) ≤ 0
    · rw [if_pos h1]
      constructor
      · intro h
        cases h
      · intro h
        exact absurd h.1 (by omega)
    · rw [if_neg h1]
      by_cases h2 : capHit b.limits.maxTotalTokens b.totalTokensUsed = true
      · rw [if_pos h2]
        constructor
        · intro h
          cases h
        · intro h
          have := (capHit_false_iff b.limits.maxTotalTokens b.totalTokensUsed).2 h.2.1
          rw [h2] at this
          cases this
      · rw [if_neg h2]
        by_cases h3 : capHit b.limits.maxTotalInputTokens b.totalInputTokensUsed = true
        · rw [if_pos h3]
          constructor
          · intro h
            cases h
          · intro h
            have := (capHit_false_iff b.limits.maxTotalInputTokens b.totalInputTokensUsed).2 h.2.2.1
            rw [h3] at this
            cases this
        · rw [if_neg h3]
          by_cases h4 : capHit b.limits.maxTotalOutputTokens b.totalOutputTokensUsed = true
          · rw [if_pos h4]
            constructor
            · intro h
              cases h
            · intro h
              have := (capHit_false_iff b.limits.maxTotalOutputTokens
                b.totalOutputTokensUsed).2 h.2.2.2
              rw [h4] at this
              cases this
          · rw [if_neg h4]
            simp only [true_iff]
            refine ⟨by omega, ?_, ?_, ?_⟩
            · exact (capHit_false_iff _ _).1 (Bool.not_eq_true _ ▸ (by simpa using h2))
            · exact (capHit_false_iff _ _).1 (Bool.not_eq_true _ ▸ (by simpa using h3))
            · exact (capHit_false_iff _ _).1 (Bool.not_eq_true _ ▸ (by simpa using h4))
  · intro b u
    exact ⟨rfl, rfl, rfl, rfl, rfl, rfl⟩
  · refine ⟨exampleOverBudget, ⟨10, rfl, by decide⟩, ?_⟩
    decide

/-- Claim C1: every run of runToolLoop that terminates normally (a LoopResult.done,
whether by a stop response or by budget exhaustion after at least one call) ends with
stepsUsed within maxSteps and toolCallsUsed within maxToolCalls of the limits
normalized by createBudget, which the final state carries unchanged. -/
theorem runToolLoop_budget_invariant (o : Oracle) (opts : ToolLoopOptions)
    (r : LlmResponse) (st' : LoopState)
    (h : runToolLoop o opts = LoopResult.done r st') :
    st'.budget.stepsUsed ≤ st'.budget.limits.maxSteps ∧
    st'.budget.toolCallsUsed ≤ st'.budget.limits.maxToolCalls ∧
    st'.budget.limits = (initialBudget opts).limits := by
  have hinv := runLoopFuel_budget o (loopPurpose opts.request.purpose) opts.keepLastN
    (initialBudget opts).limits.maxSteps
    { budget := initialBudget opts
      messages := opts.request.messages
      usageTotal := makeUsage 0 0
      lastResponse := none
      stepIdx := 0
      trace := [] }
  unfold runToolLoop at h
  rw [h] at hinv
  simp only [LoopResult.state] at hinv
  have hok := hinv.2 ⟨Nat.zero_le _, Nat.zero_le _⟩
  exact ⟨hok.1, hok.2, hinv.1⟩

/-- Claim C9: runToolLoop terminates for every input: the fuel chosen equal to the
normalized maxSteps (which is at least 1) is never exhausted, because each iteration
books one model call and canCallModel bounds stepsUsed by maxSteps; hence the loop
body runs at most maxSteps times. -/
theorem runToolLoop_terminates_within_maxSteps (o : Oracle) (opts : ToolLoopOptions) :
    (runToolLoop o opts).isOutOfFuel = false ∧
    countModelCalls (runToolLoop o opts).state.trace ≤ (initialBudget opts).limits.maxSteps ∧
    1 ≤ (initialBudget opts).limits.maxSteps := by
  have hst : (1 : Nat) ≤ (initialBudget opts).limits.maxSteps := by
    unfold initialBudget createBudget normalizeLimits
    simp only
    have : (1 : Int) ≤ max 1 (opts.limits.maxSteps.getD 6) := le_max_left _ _
    omega
  refine ⟨?_, ?_, hst⟩
  · unfold runToolLoop
    exact runLoopFuel_not_outOfFuel o (loopPurpose opts.request.purpose) opts.keepLastN
      (initialBudget opts).limits.maxSteps _ (by simp)
  · have hsync := runLoopFuel_countModel o (loopPurpose opts.request.purpose) opts.keepLastN
      (initialBudget opts).limits.maxSteps
      { budget := initialBudget opts
        messages := opts.request.messages
        usageTotal := makeUsage 0 0
        lastResponse := none
        stepIdx := 0
        trace := [] } rfl
    have hinv := runLoopFuel_budget o (loopPurpose opts.request.purpose) opts.keepLastN
      (initialBudget opts).limits.maxSteps
      { budget := initialBudget opts
        messages := opts.request.messages
        usageTotal := makeUsage 0 0
        lastResponse := none
        stepIdx := 0
        trace := [] }
    unfold runToolLoop
    rw [hsync]
    have := (hinv.2 ⟨Nat.zero_le _, Nat.zero_le _⟩).1
    rw [hinv.1] at this
    exact this

/-- Witness for the C1 invariant theorem at a concrete two-step run. -/
theorem runToolLoop_budget_invariant_witness :
    (runToolLoop wOracle wOpts).state.budget.stepsUsed ≤
      (runToolLoop wOracle wOpts).state.budget.limits.maxSteps ∧
    (runToolLoop wOracle wOpts).state.budget.toolCallsUsed ≤
      (runToolLoop wOracle wOpts).state.budget.limits.maxToolCalls := by
  have h : runToolLoop wOracle wOpts =
      LoopResult.done wRes1 ((runToolLoop wOracle wOpts).state) := by rfl
  have hmain := runToolLoop_budget_invariant wOracle wOpts wRes1 _ h
  exact ⟨hmain.1, hmain.2.1⟩

/-! ## clampHistory lemmas -/

theorem clampHistory_some (kk : Int) (l : List LlmMessage) :
    clampHistory (some kk) l =
      if kk ≤ 0 then l
      else if (l.length : Int) ≤ kk then l
      else l.drop (l.length - kk.toNat) := rfl

theorem clampHistory_pos (kk : Int) (h0 : ¬ kk ≤ 0) (l : List LlmMessage) :
    clampHistory (some kk) l = l.drop (l.length - kk.toNat) := by
  rw [clampHistory_some, if_neg h0]
  by_cases hlen : (l.length : Int) ≤ kk
  · rw [if_pos hlen]
    have hz : l.length - kk.toNat = 0 := by omega
    rw [hz, List.drop_zero]
  · rw [if_neg hlen]

theorem clampHistory_append (k : Option Int) (xs ys : List LlmMessage) :
    clampHistory k (clampHistory k xs ++ ys) = clampHistory k (xs ++ ys) := by
  cases k with
  | none => rfl
  | some kk =>
    by_cases h0 : kk ≤ 0
    · have e : ∀ l : List LlmMessage, clampHistory (some kk) l = l := by
        intro l
        rw [clampHistory_some, if_pos h0]
      rw [e, e, e]
    · rw [clampHistory_pos kk h0, clampHistory_pos kk h0, clampHistory_pos kk h0,
        List.drop_append_eq_append_drop, List.drop_append_eq_append_drop, List.drop_drop]
      simp only [List.length_append, List.length_drop]
      congr 1
      · congr 1
        omega
      · congr 1
        omega

theorem clampHistory_idem (k : Option Int) (l : List LlmMessage) :
    clampHistory k (clampHistory k l) = clampHistory k l := by
  have h := clampHistory_append k l []
  rwa [List.append_nil, List.append_nil] at h

theorem clampHistory_eq_drop (k : Option Int) (l : List LlmMessage) :
    ∃ d, clampHistory k l = l.drop d := by
  cases k with
  | none => exact ⟨0, by rw [List.drop_zero]; rfl⟩
  | some kk =>
    by_cases h0 : kk ≤ 0
    · refine ⟨0, ?_⟩
      rw [List.drop_zero]
      rw [clampHistory_some, if_pos h0]
    · exact ⟨l.length - kk.toNat, clampHistory_pos kk h0 l⟩

/-! ## processCalls appends one Tool message per call -/

theorem transcript_succ (o : Oracle) (p : Purpose) (init : List LlmMessage) (n : Nat) :
    transcript o p init (n + 1) = transcript o p init n ++ turnBlock o p n := rfl

theorem turnBlock_def (o : Oracle) (p : Purpose) (j : Nat) :
    turnBlock o p j = (o.chat j).message :: ((o.chat j).toolCalls.map (toolMsgFor o p)) := rfl

theorem toolMsgFor_shape (o : Oracle) (p : Purpose) (c : ToolCall) :
    ∃ content, toolMsgFor o p c = LlmMessage.tool c.name c.id content := by
  unfold toolMsgFor
  by_cases h : o.approve c = true
  · rw [if_pos h]
    exact ⟨_, rfl⟩
  · rw [if_neg h]
    exact ⟨_, rfl⟩

theorem isToolMsgFor_toolMsgFor (o : Oracle) (p : Purpose) (c : ToolCall) (id : String) :
    isToolMsgFor (toolMsgFor o p c) id = decide (c.id = id) := by
  obtain ⟨content, hc⟩ := toolMsgFor_shape o p c
  rw [hc]
  rfl

theorem msgHasCallId_toolMsgFor (o : Oracle) (p : Purpose) (c : ToolCall) (id : String) :
    msgHasCallId (toolMsgFor o p c) id = false := by
  obtain ⟨content, hc⟩ := toolMsgFor_shape o p c
  rw [hc]
  rfl

theorem toolMsgFor_ne_assistant (o : Oracle) (p : Purpose) (c : ToolCall)
    (cnt : String) (tcs : List ToolCall) :
    toolMsgFor o p c ≠ LlmMessage.assistant cnt tcs := by
  obtain ⟨content, hc⟩ := toolMsgFor_shape o p c
  rw [hc]
  intro h
  cases h

theorem processCalls_messages (o : Oracle) (p : Purpose) (k : Option Int) :
    ∀ (calls : List ToolCall) (b : BudgetState) (msgs : List LlmMessage)
      (ev : List LoopEvent) (b' : BudgetState) (msgs' : List LlmMessage)
      (ev' : List LoopEvent),
      clampHistory k msgs = msgs →
      processCalls o p k calls b msgs ev = Except.ok (b', msgs', ev') →
      msgs' = clampHistory k (msgs ++ calls.map (toolMsgFor o p)) := by
  intro calls
  induction calls with
  | nil =>
    intro b msgs ev b' msgs' ev' hm h
    injection h with h'
    injection h' with h1 h2
    injection h2 with h2 h3
    subst h2
    rw [List.map_nil, List.append_nil, hm]
  | cons call rest ih =>
    intro b msgs ev b' msgs' ev' hm h
    unfold processCalls at h
    cases hb : bookToolCall b (classifyTool call.name) with
    | error e =>
      rw [hb] at h
      cases h
    | ok b1 =>
      rw [hb] at h
      by_cases ha : o.approve call = true
      · simp only [ha, reduceIte] at h
        have hrec := ih b1
          (clampHistory k (msgs ++ [LlmMessage.tool call.name call.id
            (match o.exec call p with
             | Except.ok s => s
             | Except.error m => errorContent call.name m)]))
          (ev ++ [LoopEvent.approvalPrompt call] ++ [LoopEvent.registryExec call p])
          b' msgs' ev' (clampHistory_idem k _) h
        have hX : LlmMessage.tool call.name call.id
            (match o.exec call p with
             | Except.ok s => s
             | Except.error m => errorContent call.name m) = toolMsgFor o p call := by
          unfold toolMsgFor
          rw [if_pos ha]
        rw [hrec, clampHistory_append, List.append_assoc, List.singleton_append, hX,
          List.map_cons]
      · simp only [ha, Bool.false_eq_true, reduceIte] at h
        have hrec := ih b1
          (clampHistory k (msgs ++ [LlmMessage.tool call.name call.id (deniedContent call.name)]))
          (ev ++ [LoopEvent.approvalPrompt call] ++ [LoopEvent.denied call])
          b' msgs' ev' (clampHistory_idem k _) h
        have hX : LlmMessage.tool call.name call.id (deniedContent call.name) =
            toolMsgFor o p call := by
          unfold toolMsgFor
          rw [if_neg ha]
        rw [hrec, clampHistory_append, List.append_assoc, List.singleton_append, hX,
          List.map_cons]

/-- On any done outcome the final message list is a clamp of some full transcript. -/
theorem runLoopFuel_messages (o : Oracle) (p : Purpose) (k : Option Int)
    (init : List LlmMessage) :
    ∀ (fuel : Nat) (st : LoopState),
      (st.messages = clampHistory k (transcript o p init st.stepIdx) ∨
        (st.messages = transcript o p init st.stepIdx ∧ st.lastResponse = none)) →
      ∀ (r : LlmResponse) (st' : LoopState),
        runLoopFuel o p k fuel st = LoopResult.done r st' →
        ∃ m, st'.messages = clampHistory k (transcript o p init m) := by
  intro fuel
  induction fuel with
  | zero =>
    intro st hpre r st' h
    unfold runLoopFuel at h
    by_cases hc : canCallModel st.budget = true
    · rw [if_pos hc] at h
      cases h
    · rw [if_neg hc] at h
      cases hl : st.lastResponse with
      | none =>
        rw [hl] at h
        cases h
      | some r0 =>
        rw [hl] at h
        injection h with h1 h2
        subst h2
        cases hpre with
        | inl hA => exact ⟨st.stepIdx, hA⟩
        | inr hB =>
          rw [hB.2] at hl
          cases hl
  | succ fuel ih =>
    intro st hpre r st' h
    unfold runLoopFuel at h
    by_cases hc : canCallModel st.budget = true
    · rw [if_pos hc] at h
      cases hb : bookModelCall st.budget with
      | error e =>
        rw [hb] at h
        cases h
      | ok b1 =>
        rw [hb] at h
        have hstep : clampHistory k (st.messages ++ [(o.chat st.stepIdx).message]) =
            clampHistory k (transcript o p init st.stepIdx ++ [(o.chat st.stepIdx).message]) := by
          cases hpre with
          | inl hA => rw [hA, clampHistory_append]
          | inr hB => rw [hB.1]
        by_cases he : (o.chat st.stepIdx).toolCalls.isEmpty = true
        · simp only [he, reduceIte] at h
          injection h with h1 h2
          subst h2
          refine ⟨st.stepIdx + 1, ?_⟩
          show clampHistory k (st.messages ++ [(o.chat st.stepIdx).message]) =
            clampHistory k (transcript o p init (st.stepIdx + 1))
          rw [hstep, transcript_succ, turnBlock_def, List.isEmpty_iff.1 he, List.map_nil]
        · simp only [he, Bool.false_eq_true, reduceIte] at h
          cases hpc : processCalls o p k (o.chat st.stepIdx).toolCalls
              (bookUsage b1 (o.chat st.stepIdx).usage)
              (clampHistory k (st.messages ++ [(o.chat st.stepIdx).message]))
              (st.trace ++ [LoopEvent.modelCall st.stepIdx]) with
          | error eout =>
            obtain ⟨e, b2, msgs2, ev2⟩ := eout
            rw [hpc] at h
            cases h
          | ok out =>
            obtain ⟨b2, msgs2, ev2⟩ := out
            rw [hpc] at h
            have hmsgs2 : msgs2 = clampHistory k (transcript o p init (st.stepIdx + 1)) := by
              have hpm := processCalls_messages o p k (o.chat st.stepIdx).toolCalls
                (bookUsage b1 (o.chat st.stepIdx).usage)
                (clampHistory k (st.messages ++ [(o.chat st.stepIdx).message]))
                (st.trace ++ [LoopEvent.modelCall st.stepIdx]) b2 msgs2 ev2
                (clampHistory_idem k _) hpc
              rw [hpm, hstep, clampHistory_append, List.append_assoc,
                List.singleton_append, transcript_succ, turnBlock_def]
            exact ih
              { budget := b2, messages := msgs2,
                usageTotal := addUsage st.usageTotal (o.chat st.stepIdx).usage,
                lastResponse := some (o.chat st.stepIdx), stepIdx := st.stepIdx + 1, trace := ev2 }
              (Or.inl hmsgs2) r st' h
    · rw [if_neg hc] at h
      cases hl : st.lastResponse with
      | none =>
        rw [hl] at h
        cases h
      | some r0 =>
        rw [hl] at h
        injection h with h1 h2
        subst h2
        cases hpre with
        | inl hA => exact ⟨st.stepIdx, hA⟩
        | inr hB =>
          rw [hB.2] at hl
          cases hl

/-! ## Counting Tool messages in the transcript -/

theorem countToolFor_append (a b : List LlmMessage) (id : String) :
    countToolFor (a ++ b) id = countToolFor a id + countToolFor b id :=
  List.countP_append _ _ _

theorem countToolFor_toolMsgs (o : Oracle) (p : Purpose) (tcs : List ToolCall) (id : String) :
    countToolFor (tcs.map (toolMsgFor o p)) id = tcs.countP (fun c => decide (c.id = id)) := by
  unfold countToolFor
  rw [List.countP_map]
  congr 1
  funext c
  simp [Function.comp, isToolMsgFor_toolMsgFor]

theorem countP_id_one :
    ∀ (tcs : List ToolCall) (id : String),
      (tcs.map (fun c => c.id)).Nodup → id ∈ tcs.map (fun c => c.id) →
      tcs.countP (fun c => decide (c.id = id)) = 1 := by
  intro tcs
  induction tcs with
  | nil =>
    intro id hnd hm
    cases hm
  | cons c rest ih =>
    intro id hnd hm
    rw [List.map_cons] at hnd hm
    have hnc := (List.nodup_cons.1 hnd).1
    have hnr := (List.nodup_cons.1 hnd).2
    rw [List.countP_cons]
    rcases List.mem_cons.1 hm with heq | hmem
    · have hz : rest.countP (fun c => decide (c.id = id)) = 0 := by
        apply List.countP_eq_zero.2
        intro c' hc'
        simp only [decide_eq_true_eq]
        intro hcc
        exact hnc (heq ▸ hcc ▸ List.mem_map_of_mem (fun x => x.id) hc')
      rw [hz]
      simp [heq]
    · have hne : ¬ (c.id = id) := by
        intro hcc
        exact hnc (hcc ▸ hmem)
      rw [ih id hnr hmem]
      simp [hne]

theorem countP_id_zero (tcs : List ToolCall) (id : String)
    (h : id ∉ tcs.map (fun c => c.id)) :
    tcs.countP (fun c => decide (c.id = id)) = 0 := by
  apply List.countP_eq_zero.2
  intro c hc
  simp only [decide_eq_true_eq]
  intro hcc
  exact h (hcc ▸ List.mem_map_of_mem (fun x => x.id) hc)

theorem isToolMsgFor_response_message (r : LlmResponse) (id : String) :
    isToolMsgFor r.message id = false := rfl

theorem msgHasCallId_response_message (r : LlmResponse) (id : String) :
    msgHasCallId r.message id = r.toolCalls.any (fun c => c.id = id) := rfl

theorem countToolFor_turnBlock (o : Oracle) (p : Purpose) (j : Nat) (id : String) :
    countToolFor (turnBlock o p j) id =
      (o.chat j).toolCalls.countP (fun c => decide (c.id = id)) := by
  rw [turnBlock_def]
  unfold countToolFor
  rw [List.countP_cons]
  have h0 : (fun m => isToolMsgFor m id) (o.chat j).message = false :=
    isToolMsgFor_response_message (o.chat j) id
  rw [← countToolFor_toolMsgs o p]
  unfold countToolFor
  simp [h0]

theorem mentions_false_split {m : LlmMessage} {id : String}
    (h : mentionsId m id = false) :
    msgHasCallId m id = false ∧ isToolMsgFor m id = false := by
  unfold mentionsId at h
  exact ⟨(Bool.or_eq_false_iff.1 h).1, (Bool.or_eq_false_iff.1 h).2⟩

/-- Global tool-message counts over the transcript: exactly one Tool message for each
id emitted by a completed step, none (and no Assistant carrier) for ids of steps not
yet taken. -/
theorem transcript_counts (o : Oracle) (p : Purpose) (init : List LlmMessage)
    (H1 : ∀ j, (respIds (o.chat j)).Nodup)
    (H2 : ∀ i j, i ≠ j → ∀ id, id ∈ respIds (o.chat i) → id ∉ respIds (o.chat j))
    (H3 : ∀ j id, id ∈ respIds (o.chat j) → ∀ m ∈ init, mentionsId m id = false) :
    ∀ (n j : Nat) (id : String), id ∈ respIds (o.chat j) →
      (j < n → countToolFor (transcript o p init n) id = 1) ∧
      (n ≤ j → countToolFor (transcript o p init n) id = 0 ∧
        ∀ m ∈ transcript o p init n, msgHasCallId m id = false) := by
  intro n
  induction n with
  | zero =>
    intro j id hid
    refine ⟨by omega, fun _ => ⟨?_, ?_⟩⟩
    · apply List.countP_eq_zero.2
      intro m hm
      rw [(mentions_false_split (H3 j id hid m hm)).2]
      simp
    · intro m hm
      exact (mentions_false_split (H3 j id hid m hm)).1
  | succ n ih =>
    intro j id hid
    have hblock_other : j ≠ n → countToolFor (turnBlock o p n) id = 0 := by
      intro hjn
      rw [countToolFor_turnBlock]
      exact countP_id_zero _ _ (H2 j n hjn id hid)
    constructor
    · intro hj
      show countToolFor (transcript o p init n ++ turnBlock o p n) id = 1
      rw [countToolFor_append]
      by_cases hjn : j = n
      · subst hjn
        rw [((ih j id hid).2 (le_refl j)).1]
        rw [countToolFor_turnBlock]
        rw [countP_id_one _ _ (H1 j) hid]
      · rw [(ih j id hid).1 (by omega), hblock_other hjn]
    · intro hj
      have hT := (ih j id hid).2 (by omega)
      refine ⟨?_, ?_⟩
      · show countToolFor (transcript o p init n ++ turnBlock o p n) id = 0
        rw [countToolFor_append, hT.1, hblock_other (by omega)]
      · intro m hm
        rw [transcript_succ] at hm
        rcases List.mem_append.1 hm with hmT | hmB
        · exact hT.2 m hmT
        · rw [turnBlock_def] at hmB
          rcases List.mem_cons.1 hmB with hmA | hmTool
          · rw [hmA, msgHasCallId_response_message]
            apply List.any_eq_false.2
            intro c hc
            simp only [decide_eq_true_eq]
            intro hcc
            exact H2 j n (by omega) id hid (hcc ▸ List.mem_map_of_mem (fun x => x.id) hc)
          · obtain ⟨call, _, hcall⟩ := List.mem_map.1 hmTool
            rw [← hcall]
            exact msgHasCallId_toolMsgFor o p call id

/-- Positional linkage: any Assistant message occurring in the transcript whose
tool call was emitted by the oracle is followed by exactly one matching Tool
message. -/
theorem transcript_positions (o : Oracle) (p : Purpose) (init : List LlmMessage)
    (H1 : ∀ j, (respIds (o.chat j)).Nodup)
    (H2 : ∀ i j, i ≠ j → ∀ id, id ∈ respIds (o.chat i) → id ∉ respIds (o.chat j))
    (H3 : ∀ j id, id ∈ respIds (o.chat j) → ∀ m ∈ init, mentionsId m id = false) :
    ∀ (n i : Nat) (c : String) (tcs : List ToolCall),
      (transcript o p init n).drop i =
        LlmMessage.assistant c tcs :: (transcript o p init n).drop (i + 1) →
      ∀ call ∈ tcs, ∀ j, call.id ∈ respIds (o.chat j) →
        countToolFor ((transcript o p init n).drop (i + 1)) call.id = 1 := by
  intro n
  induction n with
  | zero =>
    intro i c tcs hdrop call hcall j hid
    exfalso
    have hmem : LlmMessage.assistant c tcs ∈ init := by
      have : LlmMessage.assistant c tcs ∈ (transcript o p init 0).drop i := by
        rw [hdrop]
        exact List.mem_cons_self _ _
      exact (List.drop_sublist i _).mem this
    have := (mentions_false_split (H3 j call.id hid _ hmem)).1
    rw [msgHasCallId] at this
    rw [List.any_eq_false] at this
    exact absurd (by simp) (this call hcall)
  | succ n ih =>
    intro i c tcs hdrop call hcall j hid
    by_cases hi : i < (transcript o p init n).length
    · have hdT : (transcript o p init (n + 1)).drop i =
          (transcript o p init n).drop i ++ turnBlock o p n := by
        rw [transcript_succ, List.drop_append_eq_append_drop,
          Nat.sub_eq_zero_of_le (by omega), List.drop_zero]
      have hdT1 : (transcript o p init (n + 1)).drop (i + 1) =
          (transcript o p init n).drop (i + 1) ++ turnBlock o p n := by
        rw [transcript_succ, List.drop_append_eq_append_drop,
          Nat.sub_eq_zero_of_le (by omega), List.drop_zero]
      rw [hdT, hdT1] at hdrop
      cases hTd : (transcript o p init n).drop i with
      | nil =>
        rw [hTd] at hdrop
        have : (transcript o p init n).length - i = 0 := by
          rw [← List.length_drop, hTd]
          rfl
        omega
      | cons hd tl =>
        rw [hTd, List.cons_append] at hdrop
        injection hdrop with hhd htl
        have htail : tl = (transcript o p init n).drop (i + 1) := by
          have := List.tail_drop (transcript o p init n) i
          rw [hTd] at this
          exact this
        have hTdrop : (transcript o p init n).drop i =
            LlmMessage.assistant c tcs :: (transcript o p init n).drop (i + 1) := by
          rw [hTd, hhd, htail]
        have hone := ih i c tcs hTdrop call hcall j hid
        -- the assistant lives in the first n steps, so j < n
        have hAmem : LlmMessage.assistant c tcs ∈ transcript o p init n := by
          have : LlmMessage.assistant c tcs ∈ (transcript o p init n).drop i := by
            rw [hTdrop]
            exact List.mem_cons_self _ _
          exact (List.drop_sublist i _).mem this
        have hjn : j ≠ n := by
          intro hjn
          have hle : n ≤ j := by omega
          have := ((transcript_counts o p init H1 H2 H3 n j call.id hid).2 hle).2
            _ hAmem
          rw [msgHasCallId] at this
          rw [List.any_eq_false] at this
          exact absurd (by simp) (this call hcall)
        rw [hdT1, countToolFor_append, hone, countToolFor_turnBlock,
          countP_id_zero _ _ (H2 j n hjn call.id hid)]
    · have hdN : (transcript o p init n).drop i = [] :=
        List.drop_eq_nil_of_le (by omega)
      have hdT : (transcript o p init (n + 1)).drop i =
          (turnBlock o p n).drop (i - (transcript o p init n).length) := by
        rw [transcript_succ, List.drop_append_eq_append_drop, hdN, List.nil_append]
      by_cases hieq : i = (transcript o p init n).length
      · have hz : i - (transcript o p init n).length = 0 := by omega
        rw [hz, List.drop_zero, turnBlock_def] at hdT
        rw [hdT] at hdrop
        injection hdrop with hhd htl
        have htcs : tcs = (o.chat n).toolCalls := by
          have : (o.chat n).message = LlmMessage.assistant c tcs := hhd
          unfold LlmResponse.message at this
          injection this with h1 h2
          exact h2.symm
        have hidn : call.id ∈ respIds (o.chat n) := by
          unfold respIds
          exact List.mem_map_of_mem (fun x => x.id) (htcs ▸ hcall)
        rw [← htl, countToolFor_toolMsgs o p, countP_id_one _ _ (H1 n) hidn]
      · exfalso
        obtain ⟨mq, hmq⟩ : ∃ mq, i - (transcript o p init n).length = mq + 1 :=
          ⟨i - (transcript o p init n).length - 1, by omega⟩
        rw [hmq, turnBlock_def, List.drop_succ_cons] at hdT
        have hmem1 : LlmMessage.assistant c tcs ∈ (transcript o p init (n + 1)).drop i := by
          rw [hdrop]
          exact List.mem_cons_self _ _
        rw [hdT] at hmem1
        have hmem2 := (List.drop_sublist _ _).mem hmem1
        obtain ⟨call', _, hcall'⟩ := List.mem_map.1 hmem2
        exact toolMsgFor_ne_assistant o p call' c tcs hcall'

/-- Claim C2: in every completed iteration each emitted ToolCall produces exactly one
Tool message bound to its id, appended (under history clamping) before the next model
call; and in the final message list of a normally terminated run, every surviving
emitted ToolCall is followed by exactly one Tool message with matching toolCallId
(which is also the only one in the whole list). Ids are assumed unique across the
conversation and absent from the initial history, as the data model requires. -/
theorem runToolLoop_tool_messages (o : Oracle) (opts : ToolLoopOptions)
    (H1 : ∀ j, (respIds (o.chat j)).Nodup)
    (H2 : ∀ i j, i ≠ j → ∀ id, id ∈ respIds (o.chat i) → id ∉ respIds (o.chat j))
    (H3 : ∀ j id, id ∈ respIds (o.chat j) →
      ∀ m ∈ opts.request.messages, mentionsId m id = false) :
    (∀ (calls : List ToolCall) (b : BudgetState) (msgs : List LlmMessage)
        (ev : List LoopEvent) (b' : BudgetState) (msgs' : List LlmMessage)
        (ev' : List LoopEvent),
      clampHistory opts.keepLastN msgs = msgs →
      processCalls o (loopPurpose opts.request.purpose) opts.keepLastN calls b msgs ev =
        Except.ok (b', msgs', ev') →
      msgs' = clampHistory opts.keepLastN
        (msgs ++ calls.map (toolMsgFor o (loopPurpose opts.request.purpose))) ∧
      ∀ call ∈ calls,
        isToolMsgFor (toolMsgFor o (loopPurpose opts.request.purpose) call) call.id = true) ∧
    (∀ (r : LlmResponse) (st' : LoopState),
      runToolLoop o opts = LoopResult.done r st' →
      ∀ (i : Nat) (c : String) (tcs : List ToolCall),
        st'.messages.drop i = LlmMessage.assistant c tcs :: st'.messages.drop (i + 1) →
        ∀ call ∈ tcs, ∀ j, call.id ∈ respIds (o.chat j) →
          countToolFor (st'.messages.drop (i + 1)) call.id = 1 ∧
          countToolFor st'.messages call.id = 1) := by
  constructor
  · intro calls b msgs ev b' msgs' ev' hm hpc
    refine ⟨processCalls_messages o _ _ calls b msgs ev b' msgs' ev' hm hpc, ?_⟩
    intro call hcall
    rw [isToolMsgFor_toolMsgFor]
    simp
  · intro r st' h i c tcs hdrop call hcall j hid
    obtain ⟨m, hm⟩ := runLoopFuel_messages o (loopPurpose opts.request.purpose)
      opts.keepLastN opts.request.messages (initialBudget opts).limits.maxSteps
      { budget := initialBudget opts, messages := opts.request.messages,
        usageTotal := makeUsage 0 0, lastResponse := none, stepIdx := 0, trace := [] }
      (Or.inr ⟨rfl, rfl⟩) r st' h
    obtain ⟨d, hd⟩ := clampHistory_eq_drop opts.keepLastN
      (transcript o (loopPurpose opts.request.purpose) opts.request.messages m)
    have hS : st'.messages =
        (transcript o (loopPurpose opts.request.purpose) opts.request.messages m).drop d := by
      rw [hm, hd]
    rw [hS, List.drop_drop, List.drop_drop] at hdrop
    have harr : d + (i + 1) = (d + i) + 1 := by omega
    rw [harr] at hdrop
    have hone := transcript_positions o (loopPurpose opts.request.purpose)
      opts.request.messages H1 H2 H3 m (d + i) c tcs hdrop call hcall j hid
    have hAmem : LlmMessage.assistant c tcs ∈
        transcript o (loopPurpose opts.request.purpose) opts.request.messages m := by
      have h1 : LlmMessage.assistant c tcs ∈
          (transcript o (loopPurpose opts.request.purpose) opts.request.messages m).drop
            (d + i) := by
        rw [hdrop]
        exact List.mem_cons_self _ _
      exact (List.drop_sublist _ _).mem h1
    have hjm : j < m := by
      by_contra hno
      have hle : m ≤ j := by omega
      have hfalse := ((transcript_counts o (loopPurpose opts.request.purpose)
        opts.request.messages H1 H2 H3 m j call.id hid).2 hle).2 _ hAmem
      rw [msgHasCallId] at hfalse
      rw [List.any_eq_false] at hfalse
      exact absurd (by simp) (hfalse call hcall)
    have hLone := (transcript_counts o (loopPurpose opts.request.purpose)
      opts.request.messages H1 H2 H3 m j call.id hid).1 hjm
    constructor
    · rw [hS, List.drop_drop, harr]
      exact hone
    · rw [hS]
      have hsplit1 : countToolFor
          (transcript o (loopPurpose opts.request.purpose) opts.request.messages m) call.id =
          countToolFor ((transcript o (loopPurpose opts.request.purpose)
            opts.request.messages m).take d) call.id +
          countToolFor ((transcript o (loopPurpose opts.request.purpose)
            opts.request.messages m).drop d) call.id := by
        rw [← countToolFor_append, List.take_append_drop]
      have hsplit2 : countToolFor ((transcript o (loopPurpose opts.request.purpose)
            opts.request.messages m).drop d) call.id =
          countToolFor (((transcript o (loopPurpose opts.request.purpose)
            opts.request.messages m).drop d).take (i + 1)) call.id +
          countToolFor (((transcript o (loopPurpose opts.request.purpose)
            opts.request.messages m).drop d).drop (i + 1)) call.id := by
        rw [← countToolFor_append, List.take_append_drop]
      rw [List.drop_drop, harr] at hsplit2
      omega


/-- Witness for the C2 linkage theorem at a concrete two-step run. -/
theorem runToolLoop_tool_messages_witness :
    countToolFor ((runToolLoop wOracle wOpts).state.messages.drop 2) "c1" = 1 ∧
    countToolFor (runToolLoop wOracle wOpts).state.messages "c1" = 1 := by
  have hch : ∀ j, wOracle.chat (j + 1) = wRes1 := by
    intro j
    show (if j + 1 = 0 then wRes0 else wRes1) = wRes1
    rw [if_neg (Nat.succ_ne_zero j)]
  have H1w : ∀ j, (respIds (wOracle.chat j)).Nodup := by
    intro j
    cases j with
    | zero => decide
    | succ j =>
      rw [hch]
      decide
  have H2w : ∀ i j, i ≠ j → ∀ id, id ∈ respIds (wOracle.chat i) →
      id ∉ respIds (wOracle.chat j) := by
    intro i j hij id hmem
    cases i with
    | zero =>
      cases j with
      | zero => exact absurd rfl hij
      | succ j =>
        rw [hch]
        intro hc
        cases hc
    | succ i =>
      rw [hch] at hmem
      cases hmem
  have H3w : ∀ j id, id ∈ respIds (wOracle.chat j) →
      ∀ m ∈ wOpts.request.messages, mentionsId m id = false := by
    intro j id hid m hm
    have hm' : m = LlmMessage.user ("hi") := by
      cases hm with
      | head => rfl
      | tail _ htl => cases htl
    rw [hm']
    rfl
  have h : runToolLoop wOracle wOpts =
      LoopResult.done wRes1 ((runToolLoop wOracle wOpts).state) := by rfl
  have hmain := (runToolLoop_tool_messages wOracle wOpts H1w H2w H3w).2 wRes1 _ h
    1 "" [wCall] (by rfl) wCall (by exact List.mem_cons_self _ _) 0 (by decide)
  exact hmain


/-! ## Claim C3: denied tool calls -/

/-- Counterexample for the C3 content clause: the Tool message appended for a denied
write_file call carries the JSON
  ok false, tool write_file, error Tool call denied by policy/approval.
which is not the two-field JSON object stated by the claim. -/
theorem denied_content_counterexample :
    pcMsgs (processCalls cexOracleDeny Purpose.runtime none [cexCall] cexBudget [] []) =
      [LlmMessage.tool "write_file" "w1" (deniedContent "write_file")] ∧
    deniedContent "write_file" ≠ claimedDeniedContent := by
  constructor
  · rfl
  · decide

theorem processCalls_exec_events (o : Oracle) (p : Purpose) (k : Option Int) :
    ∀ (calls : List ToolCall) (b : BudgetState) (msgs : List LlmMessage)
      (ev : List LoopEvent) (c : ToolCall) (p' : Purpose),
      LoopEvent.registryExec c p' ∈ pcEvents (processCalls o p k calls b msgs ev) →
      LoopEvent.registryExec c p' ∈ ev ∨ (o.approve c = true ∧ p' = p) := by
  intro calls
  induction calls with
  | nil =>
    intro b msgs ev c p' hmem
    exact Or.inl hmem
  | cons call rest ih =>
    intro b msgs ev c p' hmem
    unfold processCalls at hmem
    cases hb : bookToolCall b (classifyTool call.name) with
    | error e =>
      rw [hb] at hmem
      exact Or.inl hmem
    | ok b1 =>
      rw [hb] at hmem
      by_cases ha : o.approve call = true
      · simp only [ha, reduceIte] at hmem
        rcases ih b1 _ _ c p' hmem with hev | hap
        · rcases List.mem_append.1 hev with hev2 | hlast
          · rcases List.mem_append.1 hev2 with hev3 | hap2
            · exact Or.inl hev3
            · cases List.mem_singleton.1 hap2
          · have hc := List.mem_singleton.1 hlast
            injection hc with hc1 hc2
            exact Or.inr ⟨hc1 ▸ ha, hc2⟩
        · exact Or.inr hap
      · simp only [ha, Bool.false_eq_true, reduceIte] at hmem
        rcases ih b1 _ _ c p' hmem with hev | hap
        · rcases List.mem_append.1 hev with hev2 | hlast
          · rcases List.mem_append.1 hev2 with hev3 | hap2
            · exact Or.inl hev3
            · cases List.mem_singleton.1 hap2
          · cases List.mem_singleton.1 hlast
        · exact Or.inr hap

theorem runLoopFuel_exec_events (o : Oracle) (p : Purpose) (k : Option Int) :
    ∀ (fuel : Nat) (st : LoopState) (c : ToolCall) (p' : Purpose),
      LoopEvent.registryExec c p' ∈ (runLoopFuel o p k fuel st).state.trace →
      LoopEvent.registryExec c p' ∈ st.trace ∨ (o.approve c = true ∧ p' = p) := by
  intro fuel
  induction fuel with
  | zero =>
    intro st c p' hmem
    unfold runLoopFuel at hmem
    by_cases hc : canCallModel st.budget = true
    · rw [if_pos hc] at hmem
      exact Or.inl hmem
    · rw [if_neg hc] at hmem
      cases hl : st.lastResponse <;> rw [hl] at hmem <;> exact Or.inl hmem
  | succ fuel ih =>
    intro st c p' hmem
    unfold runLoopFuel at hmem
    by_cases hc : canCallModel st.budget = true
    · rw [if_pos hc] at hmem
      cases hb : bookModelCall st.budget with
      | error e =>
        rw [hb] at hmem
        exact Or.inl hmem
      | ok b1 =>
        rw [hb] at hmem
        by_cases he : (o.chat st.stepIdx).toolCalls.isEmpty = true
        · simp only [he, reduceIte] at hmem
          rcases List.mem_append.1 hmem with hev | hlast
          · exact Or.inl hev
          · cases List.mem_singleton.1 hlast
        · simp only [he, Bool.false_eq_true, reduceIte] at hmem
          cases hpc : processCalls o p k (o.chat st.stepIdx).toolCalls
              (bookUsage b1 (o.chat st.stepIdx).usage)
              (clampHistory k (st.messages ++ [(o.chat st.stepIdx).message]))
              (st.trace ++ [LoopEvent.modelCall st.stepIdx]) with
          | error eout =>
            obtain ⟨e, b2, msgs2, ev2⟩ := eout
            rw [hpc] at hmem
            have hpe := processCalls_exec_events o p k (o.chat st.stepIdx).toolCalls
              (bookUsage b1 (o.chat st.stepIdx).usage)
              (clampHistory k (st.messages ++ [(o.chat st.stepIdx).message]))
              (st.trace ++ [LoopEvent.modelCall st.stepIdx]) c p'
            rw [hpc] at hpe
            rcases hpe hmem with hev | hap
            · rcases List.mem_append.1 hev with hev2 | hlast
              · exact Or.inl hev2
              · cases List.mem_singleton.1 hlast
            · exact Or.inr hap
          | ok out =>
            obtain ⟨b2, msgs2, ev2⟩ := out
            rw [hpc] at hmem
            have hrec := ih
              { budget := b2, messages := msgs2,
                usageTotal := addUsage st.usageTotal (o.chat st.stepIdx).usage,
                lastResponse := some (o.chat st.stepIdx), stepIdx := st.stepIdx + 1,
                trace := ev2 } c p' hmem
            rcases hrec with hev | hap
            · have hpe := processCalls_exec_events o p k (o.chat st.stepIdx).toolCalls
                (bookUsage b1 (o.chat st.stepIdx).usage)
                (clampHistory k (st.messages ++ [(o.chat st.stepIdx).message]))
                (st.trace ++ [LoopEvent.modelCall st.stepIdx]) c p'
              rw [hpc] at hpe
              rcases hpe hev with hev2 | hap
              · rcases List.mem_append.1 hev2 with hev3 | hlast
                · exact Or.inl hev3
                · cases List.mem_singleton.1 hlast
              · exact Or.inr hap
            · exact Or.inr hap
    · rw [if_neg hc] at hmem
      cases hl : st.lastResponse <;> rw [hl] at hmem <;> exact Or.inl hmem

/-- Claim C3 (amended): for a denied tool call the scheduler performs no registry
invocation, appends exactly one Tool message bound to the call id whose content is
the JSON with fields ok false, tool (the call name) and error
Tool call denied by policy/approval., and continues with the remaining calls of the
turn in order; over a whole run no registryExec effect ever occurs for a call the
approval callback denies. -/
theorem denied_call_behavior (o : Oracle) (opts : ToolLoopOptions) :
    (∀ (p : Purpose) (k : Option Int) (call : ToolCall) (rest : List ToolCall)
        (b b1 : BudgetState) (msgs : List LlmMessage) (ev : List LoopEvent),
      o.approve call = false →
      bookToolCall b (classifyTool call.name) = Except.ok b1 →
      processCalls o p k (call :: rest) b msgs ev =
        processCalls o p k rest b1
          (clampHistory k (msgs ++ [LlmMessage.tool call.name call.id (deniedContent call.name)]))
          (ev ++ [LoopEvent.approvalPrompt call] ++ [LoopEvent.denied call])) ∧
    (∀ (call : ToolCall) (p' : Purpose),
      o.approve call = false →
      LoopEvent.registryExec call p' ∉ (runToolLoop o opts).state.trace) := by
  constructor
  · intro p k call rest b b1 msgs ev ha hb
    conv_lhs => rw [processCalls]
    rw [hb]
    simp only [ha, Bool.false_eq_true, reduceIte]
  · intro call p' ha hmem
    have := runLoopFuel_exec_events o (loopPurpose opts.request.purpose) opts.keepLastN
      (initialBudget opts).limits.maxSteps
      { budget := initialBudget opts, messages := opts.request.messages,
        usageTotal := makeUsage 0 0, lastResponse := none, stepIdx := 0, trace := [] }
      call p' hmem
    rcases this with hev | hap
    · cases hev
    · rw [ha] at hap
      cases hap.1

/-- Witness for the amended C3 theorem: the denying oracle run performs no registry
invocation for the denied call. -/
theorem denied_call_behavior_witness :
    LoopEvent.registryExec cexCall Purpose.runtime ∉
      (runToolLoop cexOracleDeny wOpts).state.trace := by
  exact (denied_call_behavior cexOracleDeny wOpts).2 cexCall Purpose.runtime rfl


/-! ## Claims C6, C7, C8: session store and file tools -/

/-- Counterexample for C6: saveSession writes the target file directly with
fs.writeFile and performs no rename, so the write is not temp-file-then-rename
atomic. -/
theorem saveSession_not_atomic_counterexample :
    hasDirectWrite (saveSession cexSession "t1").2 (sessionPath "s1") = true ∧
    hasRenameTo (saveSession cexSession "t1").2 (sessionPath "s1") = false := by
  constructor
  · rfl
  · rfl

/-- Claim C6 (amended): saveSession updates updatedAt, ensures the sessions
directory exists, and overwrites the file with a single direct whole-document
fs.writeFile; it does not use temp-file-and-rename, so rename atomicity is not
provided. -/
theorem saveSession_behavior (s : Session) (now : String) :
    (saveSession s now).1.updatedAt = now ∧
    (saveSession s now).1.id = s.id ∧
    (saveSession s now).1.messages = s.messages ∧
    (saveSession s now).2 =
      [FsOp.mkdirp SESS_DIR,
        FsOp.writeFile (sessionPath s.id) (serializeSession (saveSession s now).1)] ∧
    hasRenameTo (saveSession s now).2 (sessionPath s.id) = false := by
  exact ⟨rfl, rfl, rfl, rfl, rfl⟩

theorem tmpName_ne (full : List String) (uuid : String) : tmpName full uuid ≠ full := by
  rcases List.eq_nil_or_concat full with hnil | ⟨pre, b, hcat⟩
  · subst hnil
    intro h
    cases h
  · subst hcat
    simp only [List.concat_eq_append]
    unfold tmpName
    rw [List.dropLast_concat, List.getLast?_concat]
    intro h
    have hb := List.append_inj_right h (by rfl)
    have hb2 : ".tmp-" ++ (some b).getD "" ++ "-" ++ uuid = b := by
      injection hb
    rw [Option.getD_some] at hb2
    have hlen := congrArg String.length hb2
    rw [String.length_append, String.length_append, String.length_append] at hlen
    have hd : ("-").length = 1 := rfl
    have ht : (".tmp-").length = 5 := rfl
    rw [hd, ht] at hlen
    omega

/-- Claim C7: for a path passing write validation, write_file with overwrite=false
on an existing target fails with the distinct File exists error and leaves the
filesystem unchanged; otherwise it writes via write-to-temp-then-rename in the same
directory (never writing the target directly) and reports the UTF-8 byte count of
the content. -/
theorem toolWriteFile_behavior (fs : Fs) (uuid : String) (purpose : Purpose)
    (pathArg content : String) (overwrite : Bool) (full : List String)
    (hv : assertAllowedPath fs.symlinks pathArg AccessKind.write purpose = Except.ok full)
    (hp : pathArg ≠ "") :
    ((fs.lookup full).isSome = true ∧ overwrite = false →
      toolWriteFile fs uuid purpose pathArg content overwrite =
        Except.ok (WriteOut.fail ("File exists. Set overwrite=true to overwrite."), fs, [])) ∧
    ((fs.lookup full).isSome = false ∨ overwrite = true →
      (toolWriteFile fs uuid purpose pathArg content overwrite =
        Except.ok
          (WriteOut.ok
            { path := pathArg, bytes := content.utf8ByteSize, overwritten := overwrite },
            fs.insert full content, atomicWrite full content uuid)) ∧
      (tmpName full uuid).dropLast = full.dropLast ∧
      hasRenameTo (atomicWrite full content uuid) full = true ∧
      hasDirectWrite (atomicWrite full content uuid) full = false ∧
      (fs.insert full content).lookup full = some content) := by
  have hbase : toolWriteFile fs uuid purpose pathArg content overwrite =
      (match fs.lookup full with
        | some _ =>
          if ¬ overwrite then
            Except.ok (WriteOut.fail ("File exists. Set overwrite=true to overwrite."), fs, [])
          else
            Except.ok
              (WriteOut.ok
                { path := pathArg, bytes := content.utf8ByteSize, overwritten := overwrite },
                fs.insert full content, atomicWrite full content uuid)
        | none =>
          Except.ok
            (WriteOut.ok
              { path := pathArg, bytes := content.utf8ByteSize, overwritten := overwrite },
              fs.insert full content, atomicWrite full content uuid)) := by
    unfold toolWriteFile
    rw [if_neg hp, hv]
  constructor
  · intro hcase
    rw [hbase]
    cases hl : fs.lookup full with
    | none =>
      rw [hl] at hcase
      cases hcase.1
    | some c0 =>
      have hov : ¬ overwrite = true := by
        rw [hcase.2]
        exact Bool.false_ne_true
      rw [if_pos hov]
  · intro hcase
    have hmain : toolWriteFile fs uuid purpose pathArg content overwrite =
        Except.ok
          (WriteOut.ok
            { path := pathArg, bytes := content.utf8ByteSize, overwritten := overwrite },
            fs.insert full content, atomicWrite full content uuid) := by
      rw [hbase]
      cases hl : fs.lookup full with
      | none => rfl
      | some c0 =>
        rcases hcase with hnone | hov
        · rw [hl] at hnone
          cases hnone
        · rw [if_neg (by rw [hov]; exact not_not_intro rfl)]
    refine ⟨hmain, ?_, ?_, ?_, ?_⟩
    · unfold tmpName
      rw [List.dropLast_concat]
    · unfold atomicWrite hasRenameTo
      simp
    · unfold atomicWrite hasDirectWrite
      simp only [List.any_cons, List.any_nil, Bool.or_false, Bool.false_or]
      rw [beq_eq_false_iff_ne]
      exact tmpName_ne full uuid
    · unfold Fs.insert Fs.lookup
      simp

/-- Witness for the C7 theorem: a fresh write into data/outputs succeeds through
the temp-and-rename path. -/
theorem toolWriteFile_behavior_witness :
    toolWriteFile { files := [], symlinks := [] } ("u") Purpose.runtime
      ("data/outputs/x.txt") ("A") false =
      Except.ok
        (WriteOut.ok
          { path := "data/outputs/x.txt", bytes := String.utf8ByteSize ("A"),
            overwritten := false },
          Fs.insert { files := [], symlinks := [] } ["data", "outputs", "x.txt"] ("A"),
          atomicWrite ["data", "outputs", "x.txt"] ("A") ("u")) := by
  exact ((toolWriteFile_behavior { files := [], symlinks := [] } ("u") Purpose.runtime
    ("data/outputs/x.txt") ("A") false ["data", "outputs", "x.txt"] (by rfl)
    (by decide)).2 (Or.inl (by rfl))).1

set_option maxRecDepth 8000 in
/-- Counterexample for C8: a directory with 250 children yields 250 entries (more
than 200) and a false capped flag, refuting the 200-entry cap stated by the claim. -/
theorem toolListDir_cap_counterexample :
    (toolListDir ("d") (List.replicate 250 { name := "e", kind := EntryKind.file })).entries.length
      = 250 ∧
    (toolListDir ("d") (List.replicate 250 { name := "e", kind := EntryKind.file })).capped
      = false ∧
    200 < 250 := by
  exact ⟨rfl, rfl, by decide⟩

/-- Claim C8 (amended): list_dir returns at most 300 entries, its capped flag is
true exactly when the directory has more than 300 children, and every returned
entry is a name with a type drawn from dir, file, symlink, other. -/
theorem toolListDir_behavior (pathArg : String) (entries : List DirEntry) :
    (toolListDir pathArg entries).entries.length ≤ 300 ∧
    ((toolListDir pathArg entries).capped = true ↔ 300 < entries.length) ∧
    ((toolListDir pathArg entries).entries.all
      (fun e => e.2 == "dir" || e.2 == "file" || e.2 == "symlink" || e.2 == "other")) = true ∧
    (toolListDir pathArg entries).entries =
      (entries.take 300).map (fun e => (e.name, entryTypeStr e.kind)) := by
  refine ⟨?_, ?_, ?_, rfl⟩
  · show ((entries.take MAX_LIST_ENTRIES).map _).length ≤ 300
    rw [List.length_map, List.length_take]
    unfold MAX_LIST_ENTRIES
    omega
  · show decide (entries.length > MAX_LIST_ENTRIES) = true ↔ 300 < entries.length
    rw [decide_eq_true_eq]
    unfold MAX_LIST_ENTRIES
    omega
  · rw [List.all_eq_true]
    intro x hx
    obtain ⟨e, hmem, hxe⟩ := List.mem_map.1 hx
    rcases e with ⟨nm, kd⟩
    subst hxe
    cases kd <;> rfl


/-! ## Claim C10: purpose propagation and write-path policy -/

/-- Counterexample for C10: data/outputs/.env resolves under data/outputs, yet
write validation rejects it (denied dotenv basename), so validation does not accept
exactly the paths under data/outputs. -/
theorem write_policy_counterexample :
    pathOk (assertAllowedPath [] ("data/outputs/.env") AccessKind.write Purpose.runtime)
      = false ∧
    isUnderAllowedPrefixes (resolveRel (normalizeUserPath ("data/outputs/.env"))).2
      WRITE_PREFIXES_RUNTIME = true := by
  constructor
  · rfl
  · rfl

/-- Claim C10 (amended): runToolLoop maps every non-dev request purpose (default,
heartbeat, runtime) to runtime and invokes every tool with that purpose; write-path
validation accepts exactly the paths that resolve under data/outputs (under src as
well only for purpose dev) and also pass the general deny rules: non-empty,
relative, no traversal escape, no denied segment, basename not a dotenv file, and
not an existing symlink. -/
theorem write_policy_characterization (o : Oracle) (opts : ToolLoopOptions) :
    (loopPurpose opts.request.purpose =
      if opts.request.purpose = Purpose.dev then Purpose.dev else Purpose.runtime) ∧
    (∀ (call : ToolCall) (p' : Purpose),
      LoopEvent.registryExec call p' ∈ (runToolLoop o opts).state.trace →
      p' = loopPurpose opts.request.purpose) ∧
    (∀ (symlinks : List (List String)) (userPath : String) (purpose : Purpose),
      pathOk (assertAllowedPath symlinks userPath AccessKind.write purpose) =
        specWriteAccepts symlinks userPath purpose) := by
  refine ⟨rfl, ?_, ?_⟩
  · intro call p' hmem
    have := runLoopFuel_exec_events o (loopPurpose opts.request.purpose) opts.keepLastN
      (initialBudget opts).limits.maxSteps
      { budget := initialBudget opts, messages := opts.request.messages,
        usageTotal := makeUsage 0 0, lastResponse := none, stepIdx := 0, trace := [] }
      call p' hmem
    rcases this with hev | hap
    · cases hev
    · exact hap.2
  · intro symlinks userPath purpose
    simp only [assertAllowedPath, specWriteAccepts, assertNotSymlink]
    by_cases c1 : normalizeUserPath userPath = ""
    · simp [c1, pathOk]
    · by_cases c2 : startsWithSlash (normalizeUserPath userPath) = true
      · simp [c1, c2, pathOk]
      · by_cases c3 : (resolveRel (normalizeUserPath userPath)).1 > 0
        · have c3' : (resolveRel (normalizeUserPath userPath)).1 ≠ 0 := by omega
          simp [c1, c2, c3, c3', pathOk]
        · have c3' : (resolveRel (normalizeUserPath userPath)).1 = 0 := by omega
          by_cases c4 : hasDeniedSegment (resolveRel (normalizeUserPath userPath)).2 = true
          · simp [c1, c2, c3, c3', c4, pathOk]
          · by_cases c5 : isDeniedFile (resolveRel (normalizeUserPath userPath)).2 = true
            · simp [c1, c2, c3, c3', c4, c5, pathOk]
            · by_cases c6 : isUnderAllowedPrefixes (resolveRel (normalizeUserPath userPath)).2
                  (if purpose = Purpose.dev then WRITE_PREFIXES_DEV
                    else WRITE_PREFIXES_RUNTIME) = true
              · by_cases c7 : (resolveRel (normalizeUserPath userPath)).2 ∈ symlinks
                · simp [c1, c2, c3, c3', c4, c5, c6, c7, pathOk]
                · simp [c1, c2, c3, c3', c4, c5, c6, c7, pathOk]
              · simp [c1, c2, c3, c3', c4, c5, c6, pathOk]

/-- Witness for the C10 theorem: the executed call of the concrete run carries
purpose runtime, and the validator agrees with the spec-level characterization on a
concrete allowed path. -/
theorem write_policy_characterization_witness :
    Purpose.runtime = loopPurpose wOpts.request.purpose ∧
    pathOk (assertAllowedPath [] ("data/outputs/ok.txt") AccessKind.write Purpose.runtime) =
      specWriteAccepts [] ("data/outputs/ok.txt") Purpose.runtime := by
  constructor
  · exact (write_policy_characterization wOracle wOpts).2.1 wCall Purpose.runtime (by decide)
  · exact (write_policy_characterization wOracle wOpts).2.2 [] ("data/outputs/ok.txt")
      Purpose.runtime


/-! ## Legacy read_file lemmas (C5): the redaction scanner -/

/-- A successful case-insensitive key match splits the input at the key length. -/
theorem matchCI_decomp : ∀ (key s t : List Char), matchCI key s = some t →
    s = s.take key.length ++ t := by
  intro key
  induction key with
  | nil =>
    intro s t h
    simp only [matchCI, Option.some.injEq] at h
    subst h
    simp
  | cons k ks ih =>
    intro s t h
    cases s with
    | nil =>
      simp only [matchCI] at h
      exact Option.noConfusion h
    | cons c cs =>
      simp only [matchCI] at h
      by_cases hc : k.toLower = c.toLower
      · rw [if_pos hc] at h
        have hcs := ih cs t h
        simp only [List.length_cons, List.take_succ_cons, List.cons_append]
        exact congrArg (List.cons c) hcs
      · rw [if_neg hc] at h
        exact Option.noConfusion h

/-- The key always matches itself case-insensitively, leaving the rest. -/
theorem matchCI_self : ∀ (key rest : List Char), matchCI key (key ++ rest) = some rest := by
  intro key rest
  induction key with
  | nil => rfl
  | cons k ks ih =>
    simp only [List.cons_append, matchCI]
    simpa using ih

/-- The head surviving a dropWhile refutes the predicate. -/
theorem dropWhile_head_false (p : Char → Bool) :
    ∀ (l : List Char) (c : Char) (cs : List Char), l.dropWhile p = c :: cs →
      p c = false := by
  intro l
  induction l with
  | nil =>
    intro c cs h
    simp [List.dropWhile] at h
  | cons a l' ih =>
    intro c cs h
    by_cases ha : p a
    · rw [List.dropWhile_cons_of_pos ha] at h
      exact ih c cs h
    · rw [List.dropWhile_cons_of_neg ha] at h
      injection h with h1 h2
      subst h1
      cases hpc : p a with
      | false => rfl
      | true => exact absurd hpc ha

/-- A successful \s*=\s*(.+) match decomposes the input as group-1 text, a non-empty
newline-free matched value, and the rest. -/
theorem matchEq_decomp (t g1 rest : List Char) (h : matchEq t = some (g1, rest)) :
    ∃ g2, t = g1 ++ g2 ++ rest ∧ ¬ g1 = [] ∧ ¬ g2 = [] ∧ ∀ c ∈ g2, ¬ c = '\n' := by
  simp only [matchEq] at h
  split at h
  next t2 heq =>
    split at h
    next c r' heq2 =>
      simp only [Option.some.injEq, Prod.mk.injEq] at h
      obtain ⟨hg1, hrest⟩ := h
      subst hg1
      subst hrest
      have hcws : isJsWs c = false := dropWhile_head_false isJsWs t2 c r' heq2
      have hcnl : ¬ c = '\n' := by
        intro e
        rw [e] at hcws
        exact absurd hcws (by decide)
      refine ⟨(c :: r').takeWhile (fun x => ¬ x = '\n'), ?_, by simp, ?_, ?_⟩
      · have e1 : t = t.takeWhile isJsWs ++ ('=' :: t2) := by
          conv_lhs => rw [← List.takeWhile_append_dropWhile isJsWs t]
          rw [heq]
        have e2 : t2 = t2.takeWhile isJsWs ++ (c :: r') := by
          conv_lhs => rw [← List.takeWhile_append_dropWhile isJsWs t2]
          rw [heq2]
        have e3 : (c :: r') = (c :: r').takeWhile (fun x => ¬ x = '\n') ++
            (c :: r').dropWhile (fun x => ¬ x = '\n') :=
          (List.takeWhile_append_dropWhile _ _).symm
        conv_lhs => rw [e1]
        conv_lhs => rw [e2]
        conv_lhs => rw [e3]
        simp [List.append_assoc, List.cons_append]
      · rw [List.takeWhile_cons_of_pos (by simp [hcnl])]
        simp
      · intro x hx
        have hpx := List.mem_takeWhile_imp hx
        simpa using hpx
    next heq2 =>
      split at h
      next heq3 => exact Option.noConfusion h
      next b pre heq3 =>
        simp only [Option.some.injEq, Prod.mk.injEq] at h
        obtain ⟨hg1, hrest⟩ := h
        subst hg1
        subst hrest
        refine ⟨[b], ?_, by simp, by simp, ?_⟩
        · have e1 : t = t.takeWhile isJsWs ++ ('=' :: t2) := by
            conv_lhs => rw [← List.takeWhile_append_dropWhile isJsWs t]
            rw [heq]
          have e2 : t2 = t2.takeWhile isJsWs := by
            conv_lhs => rw [← List.takeWhile_append_dropWhile isJsWs t2]
            rw [heq2, List.append_nil]
          have e4 : (t2.takeWhile isJsWs).reverse =
              (t2.takeWhile isJsWs).reverse.takeWhile (fun x => x = '\n') ++ (b :: pre) := by
            conv_lhs => rw [← List.takeWhile_append_dropWhile (fun x => x = '\n')
              (t2.takeWhile isJsWs).reverse]
            rw [heq3]
          have e5 : t2.takeWhile isJsWs =
              pre.reverse ++ [b] ++
                ((t2.takeWhile isJsWs).reverse.takeWhile (fun x => x = '\n')).reverse := by
            conv_lhs => rw [← List.reverse_reverse (t2.takeWhile isJsWs)]
            conv_lhs => rw [e4]
            rw [List.reverse_append, List.reverse_cons]
          conv_lhs => rw [e1]
          conv_lhs => rw [e2]
          conv_lhs => rw [e5]
          simp [List.append_assoc, List.cons_append]
        · intro x hx
          have hb := dropWhile_head_false (fun x => x = '\n')
            (t2.takeWhile isJsWs).reverse b pre heq3
          simp only [List.mem_singleton] at hx
          subst hx
          simpa using hb
  next hne => exact Option.noConfusion h

/-- A successful regex match at the start of s decomposes it as group 1, a non-empty
newline-free matched value, and the rest. -/
theorem tryMatch_decomp (key s g1 rest : List Char) (h : tryMatch key s = some (g1, rest)) :
    ∃ g2, s = g1 ++ g2 ++ rest ∧ ¬ g1 = [] ∧ ¬ g2 = [] ∧ ∀ c ∈ g2, ¬ c = '\n' := by
  unfold tryMatch at h
  split at h
  next hm => exact Option.noConfusion h
  next t hm =>
    split at h
    next he => exact Option.noConfusion h
    next g he =>
      simp only [Option.some.injEq, Prod.mk.injEq] at h
      obtain ⟨hg1, hrest⟩ := h
      obtain ⟨g2, ht, hg1ne, hg2ne, hnl⟩ := matchEq_decomp t g.1 g.2 he
      refine ⟨g2, ?_, ?_, hg2ne, hnl⟩
      · have hs := matchCI_decomp key s t hm
        rw [hs, ht, ← hg1, ← hrest]
        simp [List.append_assoc]
      · rw [← hg1]
        intro e
        exact hg1ne (List.append_eq_nil.mp e).2

/-- The rest of a successful match is strictly shorter than the input. -/
theorem tryMatch_rest_lt (key s g1 rest : List Char) (h : tryMatch key s = some (g1, rest)) :
    rest.length < s.length := by
  obtain ⟨g2, ht, hg1, hg2, _⟩ := tryMatch_decomp key s g1 rest h
  have h1 : 0 < g2.length := List.length_pos.mpr hg2
  subst ht
  simp only [List.length_append]
  omega

theorem scanKeyF_nil (key : List Char) (fuel : Nat) : scanKeyF key fuel [] = [] := by
  cases fuel <;> rfl

/-- The scanner result does not depend on the fuel once it covers the input length. -/
theorem scanKeyF_congr (key : List Char) :
    ∀ (f1 : Nat) (s : List Char) (f2 : Nat), s.length ≤ f1 → s.length ≤ f2 →
      scanKeyF key f1 s = scanKeyF key f2 s := by
  intro f1
  induction f1 with
  | zero =>
    intro s f2 h1 h2
    have hs : s = [] := List.eq_nil_of_length_eq_zero (Nat.le_zero.mp h1)
    subst hs
    rw [scanKeyF_nil, scanKeyF_nil]
  | succ f ih =>
    intro s f2 h1 h2
    cases s with
    | nil => rw [scanKeyF_nil, scanKeyF_nil]
    | cons c cs =>
      cases f2 with
      | zero => simp at h2
      | succ f2' =>
        simp only [scanKeyF]
        simp only [List.length_cons] at h1 h2
        cases htm : tryMatch key (c :: cs) with
        | none =>
          exact congrArg (List.cons c) (ih cs f2' (by omega) (by omega))
        | some g =>
          have hlt : g.2.length < cs.length + 1 := by
            have hr := tryMatch_rest_lt key (c :: cs) g.1 g.2 (by rw [htm])
            simpa using hr
          show g.1 ++ SENT ++ scanKeyF key f g.2 = g.1 ++ SENT ++ scanKeyF key f2' g.2
          rw [ih g.2 f2' (by omega) (by omega)]

theorem scanKey_nil (key : List Char) : scanKey key [] = [] := rfl

/-- Scanner step when no match starts at the head. -/
theorem scanKey_cons_none (key : List Char) (c : Char) (cs : List Char)
    (h : tryMatch key (c :: cs) = none) :
    scanKey key (c :: cs) = c :: scanKey key cs := by
  unfold scanKey
  simp only [List.length_cons, scanKeyF]
  rw [h]

/-- Scanner step when a match starts at the head: emit group 1 and the sentinel and
continue after the matched value. -/
theorem scanKey_cons_some (key : List Char) (c : Char) (cs : List Char)
    (g : List Char × List Char) (h : tryMatch key (c :: cs) = some g) :
    scanKey key (c :: cs) = g.1 ++ SENT ++ scanKey key g.2 := by
  have hlt : g.2.length < cs.length + 1 := by
    have hr := tryMatch_rest_lt key (c :: cs) g.1 g.2 (by rw [h])
    simpa using hr
  unfold scanKey
  simp only [List.length_cons, scanKeyF]
  rw [h]
  show g.1 ++ SENT ++ scanKeyF key cs.length g.2 = g.1 ++ SENT ++ scanKeyF key g.2.length g.2
  rw [scanKeyF_congr key cs.length g.2 g.2.length (by omega) (by omega)]

/-- Every character of the scanner output comes from the input or the sentinel. -/
theorem scanKey_chars (key : List Char) :
    ∀ (n : Nat) (s : List Char), s.length ≤ n →
      ∀ c ∈ scanKey key s, c ∈ s ∨ c ∈ SENT := by
  intro n
  induction n with
  | zero =>
    intro s h c hc
    have hs : s = [] := List.eq_nil_of_length_eq_zero (Nat.le_zero.mp h)
    subst hs
    rw [scanKey_nil] at hc
    simp at hc
  | succ n ih =>
    intro s h c hc
    cases s with
    | nil =>
      rw [scanKey_nil] at hc
      simp at hc
    | cons a cs =>
      simp only [List.length_cons] at h
      cases htm : tryMatch key (a :: cs) with
      | none =>
        rw [scanKey_cons_none key a cs htm] at hc
        rcases List.mem_cons.mp hc with h1 | h1
        · exact Or.inl (by rw [h1]; exact List.mem_cons_self a cs)
        · rcases ih cs (by omega) c h1 with h2 | h2
          · exact Or.inl (List.mem_cons_of_mem a h2)
          · exact Or.inr h2
      | some g =>
        rw [scanKey_cons_some key a cs g htm] at hc
        obtain ⟨g2, hs, _, _, _⟩ := tryMatch_decomp key (a :: cs) g.1 g.2 (by rw [htm])
        have hlt : g.2.length < cs.length + 1 := by
          have hr := tryMatch_rest_lt key (a :: cs) g.1 g.2 (by rw [htm])
          simpa using hr
        simp only [List.append_assoc, List.mem_append] at hc
        rcases hc with h1 | h1 | h1
        · refine Or.inl ?_
          rw [hs]
          simp [h1]
        · exact Or.inr h1
        · rcases ih g.2 (by omega) c h1 with h2 | h2
          · refine Or.inl ?_
            rw [hs]
            simp [h2]
          · exact Or.inr h2

/-- The scanner preserves the head character of the input. -/
theorem scanKey_head (key : List Char) :
    ∀ (n : Nat) (s : List Char), s.length ≤ n → (scanKey key s).head? = s.head? := by
  intro n
  induction n with
  | zero =>
    intro s h
    have hs : s = [] := List.eq_nil_of_length_eq_zero (Nat.le_zero.mp h)
    subst hs
    rw [scanKey_nil]
  | succ n ih =>
    intro s h
    cases s with
    | nil => rw [scanKey_nil]
    | cons a cs =>
      cases htm : tryMatch key (a :: cs) with
      | none =>
        rw [scanKey_cons_none key a cs htm]
        rfl
      | some g =>
        rw [scanKey_cons_some key a cs g htm]
        obtain ⟨g2, hs, hg1, _, _⟩ := tryMatch_decomp key (a :: cs) g.1 g.2 (by rw [htm])
        cases hg1c : g.1 with
        | nil => exact absurd hg1c hg1
        | cons b g1t =>
          rw [hg1c] at hs
          simp only [List.cons_append, List.append_assoc] at hs
          injection hs with hab hcs
          simp [List.cons_append, hab]

/-- The scanner preserves well-behavedness of a secret value. -/
theorem scanKey_goodVal (key w : List Char) (hg : GoodVal w) : GoodVal (scanKey key w) := by
  obtain ⟨hne, hnl, hws⟩ := hg
  refine ⟨?_, ?_, ?_⟩
  · have hh := scanKey_head key w.length w (Nat.le_refl _)
    intro e
    rw [e] at hh
    cases w with
    | nil => exact hne rfl
    | cons a ws => simp at hh
  · intro c hc
    rcases scanKey_chars key w.length w (Nat.le_refl _) c hc with h | h
    · exact hnl c h
    · intro e
      subst e
      exact absurd h (by decide)
  · intro c hc
    have hh := scanKey_head key w.length w (Nat.le_refl _)
    rw [hc] at hh
    exact hws c hh.symm

/-- A provable character mismatch inside pre kills the match whatever follows. -/
theorem matchCI_none_of_mismatch :
    ∀ (key pre w : List Char), mismatchCI key pre = true → matchCI key (pre ++ w) = none := by
  intro key
  induction key with
  | nil =>
    intro pre w h
    simp [mismatchCI] at h
  | cons k ks ih =>
    intro pre w h
    cases pre with
    | nil => simp [mismatchCI] at h
    | cons c pre' =>
      simp only [mismatchCI] at h
      simp only [List.cons_append, matchCI]
      by_cases hc : k.toLower = c.toLower
      · rw [if_pos hc] at h
        rw [if_pos hc]
        exact ih pre' w h
      · rw [if_neg hc]

theorem tryMatch_none_of_mismatch (key pre w : List Char) (h : mismatchCI key pre = true) :
    tryMatch key (pre ++ w) = none := by
  unfold tryMatch
  rw [matchCI_none_of_mismatch key pre w h]

theorem noMatchIn_cons (key : List Char) (p : Char) (pre : List Char)
    (h : noMatchIn key (p :: pre) = true) :
    mismatchCI key (p :: pre) = true ∧ noMatchIn key pre = true := by
  unfold noMatchIn at h ⊢
  rw [List.all_eq_true] at h
  constructor
  · have h0 := h 0 (by simp)
    simpa using h0
  · rw [List.all_eq_true]
    intro i hi
    have hi' : i + 1 ∈ List.range (p :: pre).length := by
      simp only [List.mem_range, List.length_cons] at hi ⊢
      omega
    have hs := h (i + 1) hi'
    simpa using hs

/-- The scanner walks unchanged over a region in which no match can start. -/
theorem scanKey_skip (key : List Char) :
    ∀ (pre w : List Char), noMatchIn key pre = true →
      scanKey key (pre ++ w) = pre ++ scanKey key w := by
  intro pre
  induction pre with
  | nil =>
    intro w _
    simp
  | cons p pre' ih =>
    intro w h
    obtain ⟨h1, h2⟩ := noMatchIn_cons key p pre' h
    have htm : tryMatch key (p :: (pre' ++ w)) = none := by
      have hn := tryMatch_none_of_mismatch key (p :: pre') w h1
      simpa [List.cons_append] using hn
    rw [List.cons_append, scanKey_cons_none key p (pre' ++ w) htm, ih w h2, List.cons_append]

/-- The \s*=\s*(.+) suffix on a plain single-line value: group-1 rest is just the
equals sign and the whole value is consumed. -/
theorem matchEq_plain (c0 : Char) (w' : List Char) (hc0 : isJsWs c0 = false)
    (hnl : ∀ c ∈ c0 :: w', ¬ c = '\n') :
    matchEq ('=' :: c0 :: w') = some (['='], []) := by
  have hd1 : ('=' :: c0 :: w').dropWhile isJsWs = '=' :: c0 :: w' :=
    List.dropWhile_cons_of_neg (by decide)
  have ht1 : ('=' :: c0 :: w').takeWhile isJsWs = [] :=
    List.takeWhile_cons_of_neg (by decide)
  have hd2 : (c0 :: w').dropWhile isJsWs = c0 :: w' :=
    List.dropWhile_cons_of_neg (by simp [hc0])
  have ht2 : (c0 :: w').takeWhile isJsWs = [] :=
    List.takeWhile_cons_of_neg (by simp [hc0])
  have hd3 : (c0 :: w').dropWhile (fun x => ¬ x = '\n') = [] := by
    rw [List.dropWhile_eq_nil_iff]
    intro x hx
    simp [hnl x hx]
  simp only [matchEq, hd1, ht1, hd2, ht2, hd3, List.nil_append]

/-- The whole regex on KEY= followed by a plain value: group 1 is KEY= and the value
is consumed to the end. -/
theorem tryMatch_self (P : List Char) (c0 : Char) (w' : List Char)
    (hc0 : isJsWs c0 = false) (hnl : ∀ c ∈ c0 :: w', ¬ c = '\n') :
    tryMatch P (P ++ '=' :: c0 :: w') = some (P ++ ['='], []) := by
  simp only [tryMatch, matchCI_self, matchEq_plain c0 w' hc0 hnl, List.take_left]

/-- A KEY=value input with a well-behaved value is rewritten to KEY= plus the
sentinel. -/
theorem scanKey_self (P Keq : List Char) (hP : ¬ P = []) (hKeq : Keq = P ++ ['='])
    (w : List Char) (hg : GoodVal w) : scanKey P (Keq ++ w) = Keq ++ SENT := by
  obtain ⟨hne, hnl, hws⟩ := hg
  cases w with
  | nil => exact absurd rfl hne
  | cons c0 w' =>
    have hc0 : isJsWs c0 = false := hws c0 rfl
    subst hKeq
    cases P with
    | nil => exact absurd rfl hP
    | cons p0 P' =>
      have htm := tryMatch_self (p0 :: P') c0 w' hc0 hnl
      have hin : ((p0 :: P') ++ ['=']) ++ c0 :: w' = p0 :: (P' ++ '=' :: c0 :: w') := by
        simp
      rw [List.cons_append] at htm
      rw [hin, scanKey_cons_some (p0 :: P') p0 (P' ++ '=' :: c0 :: w')
        ((p0 :: P') ++ ['='], []) htm]
      simp [scanKey_nil]

/-- redactSecrets on an explicit character list is the seven scan passes in
order. -/
theorem redactSecrets_mk (l : List Char) :
    redactSecrets (String.mk l) =
      String.mk (scanKey (("PASSWORD").data) (scanKey (("SECRET").data)
        (scanKey (("TOKEN").data) (scanKey (("ANTHROPIC_API_KEY").data)
          (scanKey (("OPENAI_API_KEY").data) (scanKey (("GROK_API_KEY").data)
            (scanKey (("API_KEY").data) l))))))) := rfl

/-- For every secret pattern, redactSecrets rewrites KEY= followed by a well-behaved
value to KEY= followed by the sentinel. -/
theorem redact_key (key : String) (hkey : key ∈ SECRET_PATTERNS) (w : List Char)
    (hg : GoodVal w) :
    redactSecrets (String.mk (key.data ++ '=' :: w)) =
      String.mk (key.data ++ '=' :: SENT) := by
  simp only [SECRET_PATTERNS, List.mem_cons, List.not_mem_nil, or_false] at hkey
  rcases hkey with rfl | rfl | rfl | rfl | rfl | rfl | rfl
  · rw [redactSecrets_mk]
    rw [show ("API_KEY").data ++ '=' :: w = ("API_KEY=").data ++ w from rfl,
      scanKey_self (("API_KEY").data) (("API_KEY=").data) (by decide) rfl w hg]
    decide
  · rw [redactSecrets_mk]
    rw [show ("GROK_API_KEY").data ++ '=' :: w =
        ("GROK_").data ++ (("API_KEY=").data ++ w) from rfl,
      scanKey_skip (("API_KEY").data) (("GROK_").data) ((("API_KEY=").data ++ w)) (by decide),
      scanKey_self (("API_KEY").data) (("API_KEY=").data) (by decide) rfl w hg]
    decide
  · rw [redactSecrets_mk]
    rw [show ("OPENAI_API_KEY").data ++ '=' :: w =
        ("OPENAI_").data ++ (("API_KEY=").data ++ w) from rfl,
      scanKey_skip (("API_KEY").data) (("OPENAI_").data) ((("API_KEY=").data ++ w)) (by decide),
      scanKey_self (("API_KEY").data) (("API_KEY=").data) (by decide) rfl w hg]
    decide
  · rw [redactSecrets_mk]
    rw [show ("ANTHROPIC_API_KEY").data ++ '=' :: w =
        ("ANTHROPIC_").data ++ (("API_KEY=").data ++ w) from rfl,
      scanKey_skip (("API_KEY").data) (("ANTHROPIC_").data)
        ((("API_KEY=").data ++ w)) (by decide),
      scanKey_self (("API_KEY").data) (("API_KEY=").data) (by decide) rfl w hg]
    decide
  · rw [redactSecrets_mk]
    rw [show ("TOKEN").data ++ '=' :: w = ("TOKEN=").data ++ w from rfl,
      scanKey_skip (("API_KEY").data) (("TOKEN=").data) w (by decide),
      scanKey_skip (("GROK_API_KEY").data) (("TOKEN=").data)
        (scanKey (("API_KEY").data) w) (by decide),
      scanKey_skip (("OPENAI_API_KEY").data) (("TOKEN=").data)
        (scanKey (("GROK_API_KEY").data) (scanKey (("API_KEY").data) w)) (by decide),
      scanKey_skip (("ANTHROPIC_API_KEY").data) (("TOKEN=").data)
        (scanKey (("OPENAI_API_KEY").data) (scanKey (("GROK_API_KEY").data)
          (scanKey (("API_KEY").data) w))) (by decide),
      scanKey_self (("TOKEN").data) (("TOKEN=").data) (by decide) rfl
        (scanKey (("ANTHROPIC_API_KEY").data) (scanKey (("OPENAI_API_KEY").data)
          (scanKey (("GROK_API_KEY").data) (scanKey (("API_KEY").data) w))))
        (scanKey_goodVal _ _ (scanKey_goodVal _ _ (scanKey_goodVal _ _
          (scanKey_goodVal _ _ hg))))]
    decide
  · rw [redactSecrets_mk]
    rw [show ("SECRET").data ++ '=' :: w = ("SECRET=").data ++ w from rfl,
      scanKey_skip (("API_KEY").data) (("SECRET=").data) w (by decide),
      scanKey_skip (("GROK_API_KEY").data) (("SECRET=").data)
        (scanKey (("API_KEY").data) w) (by decide),
      scanKey_skip (("OPENAI_API_KEY").data) (("SECRET=").data)
        (scanKey (("GROK_API_KEY").data) (scanKey (("API_KEY").data) w)) (by decide),
      scanKey_skip (("ANTHROPIC_API_KEY").data) (("SECRET=").data)
        (scanKey (("OPENAI_API_KEY").data) (scanKey (("GROK_API_KEY").data)
          (scanKey (("API_KEY").data) w))) (by decide),
      scanKey_skip (("TOKEN").data) (("SECRET=").data)
        (scanKey (("ANTHROPIC_API_KEY").data) (scanKey (("OPENAI_API_KEY").data)
          (scanKey (("GROK_API_KEY").data) (scanKey (("API_KEY").data) w)))) (by decide),
      scanKey_self (("SECRET").data) (("SECRET=").data) (by decide) rfl
        (scanKey (("TOKEN").data) (scanKey (("ANTHROPIC_API_KEY").data)
          (scanKey (("OPENAI_API_KEY").data) (scanKey (("GROK_API_KEY").data)
            (scanKey (("API_KEY").data) w)))))
        (scanKey_goodVal _ _ (scanKey_goodVal _ _ (scanKey_goodVal _ _
          (scanKey_goodVal _ _ (scanKey_goodVal _ _ hg)))))]
    decide
  · rw [redactSecrets_mk]
    rw [show ("PASSWORD").data ++ '=' :: w = ("PASSWORD=").data ++ w from rfl,
      scanKey_skip (("API_KEY").data) (("PASSWORD=").data) w (by decide),
      scanKey_skip (("GROK_API_KEY").data) (("PASSWORD=").data)
        (scanKey (("API_KEY").data) w) (by decide),
      scanKey_skip (("OPENAI_API_KEY").data) (("PASSWORD=").data)
        (scanKey (("GROK_API_KEY").data) (scanKey (("API_KEY").data) w)) (by decide),
      scanKey_skip (("ANTHROPIC_API_KEY").data) (("PASSWORD=").data)
        (scanKey (("OPENAI_API_KEY").data) (scanKey (("GROK_API_KEY").data)
          (scanKey (("API_KEY").data) w))) (by decide),
      scanKey_skip (("TOKEN").data) (("PASSWORD=").data)
        (scanKey (("ANTHROPIC_API_KEY").data) (scanKey (("OPENAI_API_KEY").data)
          (scanKey (("GROK_API_KEY").data) (scanKey (("API_KEY").data) w)))) (by decide),
      scanKey_skip (("SECRET").data) (("PASSWORD=").data)
        (scanKey (("TOKEN").data) (scanKey (("ANTHROPIC_API_KEY").data)
          (scanKey (("OPENAI_API_KEY").data) (scanKey (("GROK_API_KEY").data)
            (scanKey (("API_KEY").data) w))))) (by decide),
      scanKey_self (("PASSWORD").data) (("PASSWORD=").data) (by decide) rfl
        (scanKey (("SECRET").data) (scanKey (("TOKEN").data)
          (scanKey (("ANTHROPIC_API_KEY").data) (scanKey (("OPENAI_API_KEY").data)
            (scanKey (("GROK_API_KEY").data) (scanKey (("API_KEY").data) w))))))
        (scanKey_goodVal _ _ (scanKey_goodVal _ _ (scanKey_goodVal _ _
          (scanKey_goodVal _ _ (scanKey_goodVal _ _ (scanKey_goodVal _ _ hg))))))]
    decide

/-- C5 counterexample: the registry read_file tool (tools/registry.ts toolReadFile)
returns file content with no secret redaction at all, so the claimed sentinel
replacement does not hold for it: on API_KEY=hunter2 it returns the secret value
verbatim, while the claimed redaction would produce the sentinel. -/
theorem toolReadFile_no_redaction_counterexample :
    (toolReadFile ("notes/k.txt") ("API_KEY=hunter2")).content = ("API_KEY=hunter2") ∧
    redactSecrets ("API_KEY=hunter2") = ("API_KEY=***REDACTED***") ∧
    ¬ (("API_KEY=hunter2") : String) = ("API_KEY=***REDACTED***") := by
  refine ⟨by decide, by decide, by decide⟩

/-- C5 (corrected): the behavior belongs to the legacy runTool read_file branch
(src/unnamed/part_001), not to tools/registry.ts toolReadFile. For every invocation
after path validation: (a) a file whose stat size exceeds MAX_READ_BYTES = 200000
bytes is rejected with the File-too-large error; (b) otherwise the result reports
the byte size, redacts the content, truncates the redacted content to 4000
characters appending the truncation marker, and sets the truncated flag exactly
when the redacted content exceeds 4000 characters; (c) for every secret pattern,
redaction replaces a well-behaved value after KEY= by the fixed sentinel. -/
theorem legacy_read_file_behavior :
    (∀ pathArg size content, MAX_READ_BYTES < size →
      legacyReadFile pathArg size content =
        ReadOut.fail ("File too large (" ++ toString size ++ " bytes). Max is " ++
          toString MAX_READ_BYTES ++ ".")) ∧
    (∀ pathArg size content, size ≤ MAX_READ_BYTES →
      legacyReadFile pathArg size content =
        ReadOut.ok
          { path := pathArg, bytes := size,
            truncated := decide (4000 < (redactSecrets content).data.length),
            content :=
              if 4000 < (redactSecrets content).data.length then
                strTake (redactSecrets content) 4000 ++ TRUNC_MARK
              else redactSecrets content }) ∧
    (∀ key ∈ SECRET_PATTERNS, ∀ w, GoodVal w →
      redactSecrets (String.mk (key.data ++ '=' :: w)) =
        String.mk (key.data ++ '=' :: SENT)) := by
  refine ⟨?_, ?_, redact_key⟩
  · intro pathArg size content h
    unfold legacyReadFile
    rw [if_pos h]
  · intro pathArg size content h
    simp only [legacyReadFile]
    rw [if_neg (by omega : ¬ size > MAX_READ_BYTES)]
    by_cases h4 : (redactSecrets content).data.length > 4000
    · rw [if_pos h4, if_pos h4, decide_eq_true h4]
    · rw [if_neg h4, if_neg h4, decide_eq_false h4]

/-- Witness for the C5 theorem: the size gate fires at 200001 bytes, and redaction
rewrites a concrete API_KEY value to the sentinel. -/
theorem legacy_read_file_behavior_witness :
    legacyReadFile ("notes/big.txt") 200001 ("x") =
      ReadOut.fail ("File too large (" ++ toString 200001 ++ " bytes). Max is " ++
        toString MAX_READ_BYTES ++ ".") ∧
    redactSecrets (String.mk ((("API_KEY").data) ++ '=' :: (("hunter2").data))) =
      String.mk ((("API_KEY").data) ++ '=' :: SENT) := by
  constructor
  · exact legacy_read_file_behavior.1 ("notes/big.txt") 200001 ("x") (by decide)
  · refine legacy_read_file_behavior.2.2 ("API_KEY") (by decide) (("hunter2").data) ?_
    refine ⟨by decide, by decide, ?_⟩
    intro c hc
    rw [show ((("hunter2").data)).head? = some 'h' from rfl] at hc
    injection hc with h1
    rw [← h1]
    decide

end OpenClaw
